import Mathlib

/-!
Verification development for the pyrit FEM boundary-condition machinery.

Shallow embedding of
`src/MAIN/Module/pyrit/source/pyrit/shapefunction/NodalShapeFunction.py`
(the shrink/inflate system-reduction pipeline) and of `Problem.save` from
`src/MAIN/Module/pyrit/source/pyrit/problem/Problem.py`.

Embedding conventions:
* numpy vectors become `List ℚ`; scipy sparse matrices become dense
  row-major `List (List ℚ)` (entry lookup with default 0 outside bounds);
* numpy integer index arrays become `List ℕ`; region tags become `ℤ`;
* `np.unique` becomes sort-plus-dedup (`npUnique`);
* Python exceptions become `Except DirErr`;
* a `Problem` instance's attribute dictionary becomes an association list.
-/

namespace Pyrit

/-! ## Generic vector / dense-matrix helpers -/

abbrev Vec := List ℚ

abbrev Mat := List (List ℚ)

/-- Entry `A[i, j]` of a dense row-major matrix, 0 outside the stored data. -/
def getEntry (A : Mat) (i j : ℕ) : ℚ := (A.getD i []).getD j 0

/-- `A[np.ix_(rows, cols)]`: the submatrix with the given row and column indices. -/
def submatrix (A : Mat) (rows cols : List ℕ) : Mat :=
  rows.map (fun i => cols.map (fun j => getEntry A i j))

/-- Matrix–vector product (rows dotted against `v`, truncating like `zip`). -/
def matVec (A : Mat) (v : Vec) : Vec :=
  A.map (fun row => ((row.zip v).map (fun p => p.1 * p.2)).sum)

/-- Componentwise vector difference. -/
def vsub (a b : Vec) : Vec := List.zipWith (fun x y => x - y) a b

/-- `np.setdiff1d(np.arange n, fixed)`: the sorted indices below `n` not in `fixed`. -/
def setdiff (n : ℕ) (fixed : List ℕ) : List ℕ :=
  (List.range n).filter (fun i => decide (i ∉ fixed))

/-- Insert a number into a sorted list. -/
def insertSorted (x : ℕ) : List ℕ → List ℕ
  | [] => [x]
  | y :: ys => if x ≤ y then x :: y :: ys else y :: insertSorted x ys

/-- Insertion sort on naturals. -/
def sortNat (l : List ℕ) : List ℕ := l.foldr insertSorted []

/-- `np.unique`: sorted list of the distinct elements. -/
def npUnique (l : List ℕ) : List ℕ := sortNat l.dedup

/-- numpy fancy-index assignment `v[idx] = vals` (positionwise, later writes win). -/
def assignAt (v : Vec) (idx : List ℕ) (vals : Vec) : Vec :=
  (idx.zip vals).foldl (fun acc p => acc.set p.1 p.2) v

/-- The symmetric Lagrange augmentation
`hstack((vstack((A, B)), vstack((Bᵀ, 0))))`: block matrix `[[A, Bᵀ], [B, 0]]`
for an `n×n` matrix `A` and an `L×n` constraint block `B`. -/
def symAugment (A B : Mat) : Mat :=
  (List.range A.length).map (fun i => A.getD i [] ++ B.map (fun row => row.getD i 0))
  ++ B.map (fun row => row ++ List.replicate B.length 0)

/-! ## `Problem.save` (Problem.py, lines 199–244)

A problem instance's attribute dictionary is embedded as an association list
from attribute names to (opaque) integer values; `getattr`, `delattr` and
`setattr` read, remove and update/append the binding of a name. -/

abbrev Attrs := List (String × ℤ)

/-- `self.__getattribute__(n)` on the instance dictionary. -/
def getattr? (a : Attrs) (n : String) : Option ℤ :=
  (a.find? (fun p => p.1 == n)).map (fun p => p.2)

/-- `delattr(self, n)`: remove the binding of `n`. -/
def delattr (a : Attrs) (n : String) : Attrs := a.filter (fun p => p.1 != n)

/-- `self.__setattr__(n, v)`: update the binding of `n` in place, or append it. -/
def setattr : Attrs → String → ℤ → Attrs
  | [], n, v => [(n, v)]
  | p :: rest, n, v => if p.1 == n then (n, v) :: rest else p :: setattr rest n v

/-- First loop of `Problem.save`: for every name in `ignore_attributes`, stash the
attribute value in `tmp_dict` and delete the attribute; a missing attribute
logs a warning and is skipped.  Returns the stripped instance (what gets
pickled) together with `tmp_dict`. -/
def save_strip : Attrs → List String → Attrs × List (String × ℤ)
  | a, [] => (a, [])
  | a, attr :: rest =>
    match getattr? a attr with
    | some v =>
      ((save_strip (delattr a attr) rest).1, (attr, v) :: (save_strip (delattr a attr) rest).2)
    | none => save_strip a rest

/-- Second loop of `Problem.save`: restore every stashed attribute from
`tmp_dict`; a missing `tmp_dict` key is logged and skipped.  (`tmp_dict` is a
Python dict, looked up with the same association-list semantics as the
attribute dictionary.) -/
def save_restore (a : Attrs) (tmp : List (String × ℤ)) : List String → Attrs
  | [] => a
  | attr :: rest =>
    match getattr? tmp attr with
    | some v => save_restore (setattr a attr v) tmp rest
    | none => save_restore a tmp rest

/-- `Problem.save`: returns the pickled attribute state and the final attribute
state of the instance after the call.  An empty/None `ignore_attributes` skips
both the stripping and the restoring loop. -/
def save (a : Attrs) (ignore : List String) : Attrs × Attrs :=
  let st := if ignore.isEmpty then (a, ([] : List (String × ℤ))) else save_strip a ignore
  (st.1, if ignore.isEmpty then st.1 else save_restore st.1 st.2 ignore)

/-! ## Boundary conditions, mesh and errors
(NodalShapeFunction.py; collaborator data read by the shrink pipeline) -/

/-- Errors raised during Dirichlet value computation
(`_calc_values_for_dirichlet`, lines 775–787):
`Exception("Dimensions dont match")`, `ValueError("Type not supported")`,
`NotImplementedError`. -/
inductive DirErr where
  | dimensionMismatch
  | typeNotSupported
  | notImplemented
deriving DecidableEq

/-- The value carried by a Dirichlet boundary condition.  In pyrit,
`bc.is_constant` holds exactly when the value is not a callable and
`bc.is_time_dependent` when it is; the runtime type of `bc.value` is then
inspected.  The five dispatch outcomes of lines 775–787 are modelled as:
constant ndarray, constant scalar (`float`/`int`/`complex`), constant of
any other type, time-dependent callable, and anything else. -/
inductive BCValue where
  | const_scalar (v : ℚ)
  | const_array (vs : List ℚ)
  | const_other
  | time_dep (f : Unit → ℚ)
  | other

/-- A binary boundary condition: paired primary/replica node index arrays and
a scalar multiplier value. -/
structure BCBinary where
  primary_nodes : List ℕ
  replica_nodes : List ℕ
  value : ℚ

/-- The mesh topology data read by the node resolution: per-node, per-edge and
per-element region tags, and edge/element connectivity (node index lists). -/
structure Mesh where
  node2regi : List ℤ
  edge2regi : List ℤ
  edge2node : List (List ℕ)
  elem2regi : List ℤ
  elem2node : List (List ℕ)

/-- `np.where(tags == regi)[0]`: sorted indices of entities tagged `regi`. -/
def whereEq (tags : List ℤ) (regi : ℤ) : List ℕ :=
  (List.range tags.length).filter (fun i => decide (tags.getD i 0 = regi))

/-- Concatenated node lists of all entities tagged `regi`
(`ent2node[np.where(tags == regi)[0], :]` flattened). -/
def taggedNodes (tags : List ℤ) (ent2node : List (List ℕ)) (regi : ℤ) : List ℕ :=
  ((whereEq tags regi).map (fun e => ent2node.getD e [])).flatten

/-- Node resolution of one region inside `_calc_values_for_dirichlet`
(lines 762–771): dimension 0 → nodes tagged with the region; dimension 1 →
unique nodes of edges tagged with the region; dimension 2 → unique nodes of
elements tagged with the region; other dimensions contribute nothing. -/
def dirichletNodesOfRegion (msh : Mesh) (dim : ℕ) (regi : ℤ) : List ℕ :=
  if dim = 0 then whereEq msh.node2regi regi
  else if dim = 1 then npUnique (taggedNodes msh.edge2regi msh.edge2node regi)
  else if dim = 2 then npUnique (taggedNodes msh.elem2regi msh.elem2node regi)
  else []

/-- Node resolution of one region inside `_calc_values_for_floating`
(lines 715–722): dimension 1 → unique nodes of edges tagged with the region;
dimension 2 → unique nodes of EDGES tagged with the region (the source's
`elif dimension_of_region == 2` branch also queries `msh.edge2regi` and
`msh.edge2node`); other dimensions contribute nothing. -/
def floatingNodesOfRegion (msh : Mesh) (dim : ℕ) (regi : ℤ) : List ℕ :=
  if dim = 1 then npUnique (taggedNodes msh.edge2regi msh.edge2node regi)
  else if dim = 2 then npUnique (taggedNodes msh.edge2regi msh.edge2node regi)
  else []

/-! ## Dirichlet value computation (`_calc_values_for_dirichlet`, lines 754–802) -/

/-- Per-condition value array (lines 775–787): a constant ndarray must match
the node count, a constant scalar or a time-dependent callable is broadcast
over the nodes, anything else raises. -/
def dirichlet_values (v : BCValue) (count : ℕ) : Except DirErr (List ℚ) :=
  match v with
  | .const_array vs => if vs.length ≠ count then .error .dimensionMismatch else .ok vs
  | .const_scalar c => .ok (List.replicate count c)
  | .const_other => .error .typeNotSupported
  | .time_dep f => .ok (List.replicate count (f ()))
  | .other => .error .notImplemented

/-- The union of the region node sets of one Dirichlet condition:
`np.unique(np.concatenate(indices_nodes_list))`. -/
def dirichletNodeSet (msh : Mesh) (regionDim : ℤ → ℕ) (regionsOfBc : ℕ → List ℤ)
    (key : ℕ) : List ℕ :=
  npUnique (((regionsOfBc key).map
    (fun regi => dirichletNodesOfRegion msh (regionDim regi) regi)).flatten)

/-- One iteration of the intersection-resolution loop (lines 791–799): remove
from the current condition's node array the positions holding nodes already
claimed by `prev` (`np.intersect1d` + first-occurrence `np.where` positions +
`np.setdiff1d` of the position range), and the matching value entries. -/
def resolveStep (prev : List ℕ) (idx : List ℕ) (vals : List ℚ) : List ℕ × List ℚ :=
  let intersection := idx.filter (fun m => decide (m ∈ prev))
  if intersection.length > 0 then
    let indicesCut := intersection.map (fun m => idx.indexOf m)
    let indicesKeep := setdiff idx.length indicesCut
    (indicesKeep.map (fun p => idx.getD p 0), indicesKeep.map (fun p => vals.getD p 0))
  else (idx, vals)

/-- The resolution loop from `k = 1` on: `indices_tmp` accumulates the already
resolved node arrays (`np.concatenate(indices_all_nodes[:k+1])`). -/
def resolveLoop (prev : List ℕ) : List (List ℕ × List ℚ) → List (List ℕ × List ℚ)
  | [] => []
  | pr :: rest =>
    let r := resolveStep prev pr.1 pr.2
    r :: resolveLoop (prev ++ r.1) rest

/-- Intersection resolution over all conditions (lines 789–801); the first
condition's arrays are never modified. -/
def resolveDirichlet : List (List ℕ × List ℚ) → List (List ℕ × List ℚ)
  | [] => []
  | pr :: rest => pr :: resolveLoop pr.1 rest

/-- Node set and value array of one Dirichlet condition (loop body of
lines 756–787). -/
def calc_pair_for_dirichlet (getBc : ℕ → BCValue) (msh : Mesh) (regionDim : ℤ → ℕ)
    (regionsOfBc : ℕ → List ℤ) (key : ℕ) : Except DirErr (List ℕ × List ℚ) :=
  let indices_nodes := dirichletNodeSet msh regionDim regionsOfBc key
  match dirichlet_values (getBc key) indices_nodes.length with
  | .error e => .error e
  | .ok vs => .ok (indices_nodes, vs)

/-- The per-condition collection loop of `_calc_values_for_dirichlet`; the
first raised error propagates. -/
def calc_pairs_for_dirichlet (getBc : ℕ → BCValue) (msh : Mesh) (regionDim : ℤ → ℕ)
    (regionsOfBc : ℕ → List ℤ) : List ℕ → Except DirErr (List (List ℕ × List ℚ))
  | [] => .ok []
  | key :: rest =>
    match calc_pair_for_dirichlet getBc msh regionDim regionsOfBc key with
    | .error e => .error e
    | .ok pr =>
      match calc_pairs_for_dirichlet getBc msh regionDim regionsOfBc rest with
      | .error e => .error e
      | .ok prs => .ok (pr :: prs)

/-- `_calc_values_for_dirichlet` (lines 754–802): per-condition node sets and
value arrays, post-processed by the intersection resolution. -/
def calc_values_for_dirichlet (getBc : ℕ → BCValue) (msh : Mesh) (regionDim : ℤ → ℕ)
    (regionsOfBc : ℕ → List ℤ) (keys : List ℕ) : Except DirErr (List (List ℕ × List ℚ)) :=
  (calc_pairs_for_dirichlet getBc msh regionDim regionsOfBc keys).map resolveDirichlet

/-! ## shrink_dirichlet (lines 512–568) -/

structure DirichletResult where
  matrix : Mat
  rhs : Vec
  indices_on_dirichlet : List ℕ
  indices_not_on_dirichlet : List ℕ
  values_on_dirichlet : Vec
deriving DecidableEq

/-- `shrink_dirichlet`: eliminate the Dirichlet-fixed rows/columns.
`rhs_reduced = rhs[free] - matrix[np.ix_(free, fixed)] @ values_fixed`,
`matrix_reduced = matrix[np.ix_(free, free)]`, with
`free = np.setdiff1d(np.arange(matrix.shape[0]), fixed)`. -/
def shrink_dirichlet (A : Mat) (r : Vec) (getBc : ℕ → BCValue) (keys : List ℕ) (msh : Mesh)
    (regionDim : ℤ → ℕ) (regionsOfBc : ℕ → List ℤ) : Except DirErr DirichletResult :=
  match calc_values_for_dirichlet getBc msh regionDim regionsOfBc keys with
  | .error e => .error e
  | .ok pairs =>
    let values_on_dirichlet := (pairs.map (fun pr => pr.2)).flatten
    let indices_on_dirichlet := (pairs.map (fun pr => pr.1)).flatten
    let indices_not_on_dirichlet := setdiff A.length indices_on_dirichlet
    .ok { matrix := submatrix A indices_not_on_dirichlet indices_not_on_dirichlet
          rhs := vsub (indices_not_on_dirichlet.map (fun i => r.getD i 0))
                      (matVec (submatrix A indices_not_on_dirichlet indices_on_dirichlet)
                        values_on_dirichlet)
          indices_on_dirichlet := indices_on_dirichlet
          indices_not_on_dirichlet := indices_not_on_dirichlet
          values_on_dirichlet := values_on_dirichlet }

/-! ## shrink_binary (lines 419–457, helper lines 646–682) -/

/-- `_calc_values_for_binary`: COO triplets (line, column, value) of the
constraint block; per condition, lines `lines_previous + np.arange(len)` carry
`-value` at the primary columns and `+1` at the replica columns, and
`lines_previous` advances by the primary count. -/
def calc_values_for_binary (getBc : ℕ → BCBinary) : List ℕ → ℕ → List (ℕ × ℕ × ℚ)
  | [], _ => []
  | key :: rest, lines_previous =>
    let bc := getBc key
    ((List.range bc.primary_nodes.length).map
        (fun i => (i + lines_previous, bc.primary_nodes.getD i 0, -bc.value)))
      ++ ((List.range bc.replica_nodes.length).map
        (fun i => (i + lines_previous, bc.replica_nodes.getD i 0, (1 : ℚ))))
      ++ calc_values_for_binary getBc rest (lines_previous + bc.primary_nodes.length)

/-- Dense entry of a COO matrix: duplicate triplets add up. -/
def cooEntry (ts : List (ℕ × ℕ × ℚ)) (i j : ℕ) : ℚ :=
  ((ts.filter (fun t => decide (t.1 = i ∧ t.2.1 = j))).map (fun t => t.2.2)).sum

/-- The inferred row count of a COO matrix, `max(lines) + 1` (also
`np.max(lines) + 1` in `compute_support_data`). -/
def cooNumRows (ts : List (ℕ × ℕ × ℚ)) : ℕ := (ts.map (fun t => t.1)).foldr max 0 + 1

/-- The dense constraint block of the given COO triplets, resized to
`numRows × numCols` (entries outside are dropped, as by `coo_matrix.resize`). -/
def cooBlock (ts : List (ℕ × ℕ × ℚ)) (numRows numCols : ℕ) : Mat :=
  (List.range numRows).map (fun i => (List.range numCols).map (fun j => cooEntry ts i j))

/-- `shrink_binary`: build the constraint block `B` from the COO data, resize
it to the matrix width, and augment symmetrically
(`hstack((vstack((matrix, B)), vstack((Bᵀ, 0))))`), padding the rhs with
zeros. -/
def shrink_binary (A : Mat) (r : Vec) (getBc : ℕ → BCBinary) (keys : List ℕ) :
    Mat × Vec × ℕ :=
  let ts := calc_values_for_binary getBc keys 0
  let num_lagrange_mul := cooNumRows ts
  let binary_matrix := cooBlock ts num_lagrange_mul A.length
  (symAugment A binary_matrix, r ++ List.replicate num_lagrange_mul 0, num_lagrange_mul)

/-- Property-side description for the binary constraints: the flattened list of
(primary node, replica node, multiplier value) triples, one per paired
primary/replica node over all binary conditions, in condition order. -/
def binaryPairs (getBc : ℕ → BCBinary) (keys : List ℕ) : List (ℕ × ℕ × ℚ) :=
  (keys.map (fun key => ((getBc key).primary_nodes.zip (getBc key).replica_nodes).map
    (fun pr => (pr.1, pr.2, (getBc key).value)))).flatten

/-! ## shrink_floating (lines 460–510, helper lines 686–725) -/

/-- `_calc_values_for_floating`: for each floating condition, the unique union
of the node sets of all its regions. -/
def calc_values_for_floating (keys : List ℕ) (msh : Mesh) (regionDim : ℤ → ℕ)
    (regionsOfBc : ℕ → List ℤ) : List (List ℕ) :=
  keys.map (fun key =>
    npUnique (((regionsOfBc key).map
      (fun regi => floatingNodesOfRegion msh (regionDim regi) regi)).flatten))

/-- The dense constraint block of one floating condition:
`matrix_slave - matrix_master`, one row per slave node `nodes[:-1]` with `+1`
at the slave column and `-1` at the master column `nodes[-1]`. -/
def floating_block (n : ℕ) (nodes : List ℕ) : Mat :=
  nodes.dropLast.map (fun s =>
    (List.range n).map (fun c =>
      (if c = s then (1 : ℚ) else 0) - (if c = nodes.getLastD 0 then (1 : ℚ) else 0)))

/-- `shrink_floating`: stack the per-condition blocks, augment symmetrically
(`bmat([[matrix, Bᵀ], [B, None]])`), pad the rhs with zeros. -/
def shrink_floating (A : Mat) (r : Vec) (keys : List ℕ) (msh : Mesh) (regionDim : ℤ → ℕ)
    (regionsOfBc : ℕ → List ℤ) : Mat × Vec × ℕ :=
  let indices_all_nodes := calc_values_for_floating keys msh regionDim regionsOfBc
  let b_matrix := (indices_all_nodes.map (fun nodes => floating_block A.length nodes)).flatten
  let num_lagrange_mul := b_matrix.length
  (symAugment A b_matrix, r ++ List.replicate num_lagrange_mul 0, num_lagrange_mul)

/-- Property-side description for the floating constraints: per node set, each
non-last ("slave") node paired with the last ("master") node, flattened over
all floating conditions in order. -/
def slavePairs (nodeSets : List (List ℕ)) : List (ℕ × ℕ) :=
  (nodeSets.map (fun ns => ns.dropLast.map (fun s => (s, ns.getLastD 0)))).flatten

/-! ## shrink, compute_support_data, inflate (lines 274–362, 804–855) -/

/-- The support data produced by `shrink` and consumed by `inflate`.  The
Dirichlet fields are `None` when no Dirichlet condition exists. -/
structure SupportData where
  num_lagrange_mul_binary : ℕ
  num_lagrange_mul_floating : ℕ
  indices_on_dirichlet : Option (List ℕ)
  indices_not_on_dirichlet : Option (List ℕ)
  values_on_dirichlet : Option Vec
deriving DecidableEq

/-- The boundary-condition state of a problem, as read by `shrink`:
the classified condition IDs per kind (`dict_of_boundary_condition`), the
condition lookup (`get_bc`), the mesh, the region dimensions
(`regions.get_regi(regi).dim`) and the region IDs of every condition
(`regions_of_bc`).  Neumann and Robin conditions only add externally computed
terms to the matrix/rhs (no resizing, no support data) and are outside the
claims, so they are not modelled. -/
structure ShrinkProblem where
  binKeys : List ℕ
  getBin : ℕ → BCBinary
  floatKeys : List ℕ
  dirKeys : List ℕ
  getDir : ℕ → BCValue
  mesh : Mesh
  regionDim : ℤ → ℕ
  regionsOfBc : ℕ → List ℤ

/-- `shrink` (lines 274–321): apply binary, floating, then Dirichlet shrinking
for the kinds actually present, and assemble the support data inline. -/
def shrink (A : Mat) (r : Vec) (p : ShrinkProblem) :
    Except DirErr (Mat × Vec × List ℕ × ℕ × SupportData) :=
  let s1 := if p.binKeys.isEmpty then (A, r, 0) else shrink_binary A r p.getBin p.binKeys
  let s2 := if p.floatKeys.isEmpty then (s1.1, s1.2.1, 0)
            else shrink_floating s1.1 s1.2.1 p.floatKeys p.mesh p.regionDim p.regionsOfBc
  let num_lagrange_mul := s1.2.2 + s2.2.2
  if p.dirKeys.isEmpty then
    .ok (s2.1, s2.2.1, [], num_lagrange_mul, ⟨s1.2.2, s2.2.2, none, none, none⟩)
  else
    match shrink_dirichlet s2.1 s2.2.1 p.getDir p.dirKeys p.mesh p.regionDim p.regionsOfBc with
    | .error e => .error e
    | .ok res =>
      .ok (res.matrix, res.rhs, res.indices_on_dirichlet, num_lagrange_mul,
        ⟨s1.2.2, s2.2.2, some res.indices_on_dirichlet,
         some res.indices_not_on_dirichlet, some res.values_on_dirichlet⟩)

/-- `compute_support_data` (lines 804–855): recompute the support data from
the boundary-condition state alone, given the reduced solution size. -/
def compute_support_data (p : ShrinkProblem) (size_solution : ℕ) :
    Except DirErr SupportData :=
  let num_lagrange_mul_binary :=
    if p.binKeys.isEmpty then 0 else cooNumRows (calc_values_for_binary p.getBin p.binKeys 0)
  let num_lagrange_mul_floating :=
    if p.floatKeys.isEmpty then 0
    else ((calc_values_for_floating p.floatKeys p.mesh p.regionDim p.regionsOfBc).map
      (fun nodes => nodes.length - 1)).sum
  if p.dirKeys.isEmpty then
    .ok ⟨num_lagrange_mul_binary, num_lagrange_mul_floating, none, none, none⟩
  else
    match calc_values_for_dirichlet p.getDir p.mesh p.regionDim p.regionsOfBc p.dirKeys with
    | .error e => .error e
    | .ok pairs =>
      let values_on_dirichlet := (pairs.map (fun pr => pr.2)).flatten
      let indices_on_dirichlet := (pairs.map (fun pr => pr.1)).flatten
      let indices_not_on_dirichlet :=
        setdiff (size_solution + indices_on_dirichlet.length) indices_on_dirichlet
      .ok ⟨num_lagrange_mul_binary, num_lagrange_mul_floating, some indices_on_dirichlet,
           some indices_not_on_dirichlet, some values_on_dirichlet⟩

/-- `inflate_dirichlet` (lines 574–601): scatter the reduced solution into the
free positions and the Dirichlet values into the fixed positions of a
full-length vector.  (`np.empty` is modelled as a zero vector; every entry is
overwritten when the index data is well formed.) -/
def inflate_dirichlet (solution : Vec) (indices_on_dirichlet : List ℕ)
    (values_on_dirichlet : Vec) (indices_not_on_dirichlet : List ℕ) : Vec :=
  let empty :=
    List.replicate (indices_on_dirichlet.length + indices_not_on_dirichlet.length) (0 : ℚ)
  assignAt (assignAt empty indices_not_on_dirichlet solution)
    indices_on_dirichlet values_on_dirichlet

/-- `inflate_floating` (lines 603–620): drop the trailing Lagrange-multiplier
entries. -/
def inflate_floating (solution : Vec) (num_lagrange_mul : ℕ) : Vec :=
  solution.take (solution.length - num_lagrange_mul)

/-- `inflate_binary` (lines 622–639): drop the trailing Lagrange-multiplier
entries. -/
def inflate_binary (solution : Vec) (num_lagrange_mul : ℕ) : Vec :=
  solution.take (solution.length - num_lagrange_mul)

/-- `inflate` (lines 323–362) given complete support data: Dirichlet scatter
(or a direct copy when no Dirichlet condition exists), then the floating drop,
then the binary drop.  (The missing-support-data branch recomputes the data
via `compute_support_data`; its agreement with the inline data is the
idempotence contract.) -/
def inflate (solution : Vec) (p : ShrinkProblem) (sd : SupportData) : Vec :=
  let s1 := if p.dirKeys.isEmpty then solution
            else inflate_dirichlet solution (sd.indices_on_dirichlet.getD [])
                   (sd.values_on_dirichlet.getD []) (sd.indices_not_on_dirichlet.getD [])
  let s2 := if p.floatKeys.isEmpty then s1 else inflate_floating s1 sd.num_lagrange_mul_floating
  if p.binKeys.isEmpty then s2 else inflate_binary s2 sd.num_lagrange_mul_binary

/-- Decidable equality of `Except` results, for evaluating the pipeline on
concrete inputs. -/
instance exceptDecEq {e a : Type} [DecidableEq e] [DecidableEq a] :
    DecidableEq (Except e a) := fun x y =>
  match x, y with
  | .error u, .error v =>
    if h : u = v then .isTrue (by rw [h]) else .isFalse (fun hh => h (Except.error.inj hh))
  | .error _, .ok _ => .isFalse (fun hh => Except.noConfusion hh)
  | .ok _, .error _ => .isFalse (fun hh => Except.noConfusion hh)
  | .ok u, .ok v =>
    if h : u = v then .isTrue (by rw [h]) else .isFalse (fun hh => h (Except.ok.inj hh))

/-! ## Generic list lemmas -/

theorem getD_map' {α β : Type} (l : List α) (f : α → β) (n : ℕ) (d : β) (d' : α)
    (h : n < l.length) : (l.map f).getD n d = f (l.getD n d') := by
  rw [List.getD_eq_getElem _ _ (by simpa using h), List.getD_eq_getElem _ _ h, List.getElem_map]

theorem getD_range (n i : ℕ) (h : i < n) : (List.range n).getD i 0 = i := by
  rw [List.getD_eq_getElem _ _ (by simpa using h)]
  simp

theorem getD_mem {α : Type} (l : List α) (n : ℕ) (d : α) (h : n < l.length) :
    l.getD n d ∈ l := by
  rw [List.getD_eq_getElem _ _ h]
  exact List.getElem_mem _

theorem getD_set_self (l : Vec) (i : ℕ) (a d : ℚ) (h : i < l.length) :
    (l.set i a).getD i d = a := by
  rw [List.getD_eq_getElem _ _ (by simpa using h)]
  exact List.getElem_set_self _

theorem getD_set_ne (l : Vec) (i j : ℕ) (a d : ℚ) (h : j ≠ i) :
    (l.set i a).getD j d = l.getD j d := by
  by_cases hj : j < l.length
  · rw [List.getD_eq_getElem _ _ (by simpa using hj), List.getD_eq_getElem _ _ hj]
    exact List.getElem_set_ne (fun hh => h hh.symm) _
  · rw [List.getD_eq_default _ _ (by simpa using Nat.le_of_not_lt hj),
      List.getD_eq_default _ _ (Nat.le_of_not_lt hj)]

theorem length_filter_not_add {α : Type} (l : List α) (p : α → Bool) :
    (l.filter (fun a => !p a)).length + (l.filter p).length = l.length := by
  induction l with
  | nil => rfl
  | cons a l ih =>
    cases hp : p a <;> simp [List.filter_cons, hp, ← ih] <;> omega

/-! ## Lemmas about the attribute operations -/

theorem getattr_nil (m : String) : getattr? [] m = none := rfl

theorem getattr_cons (p : String × ℤ) (rest : Attrs) (m : String) :
    getattr? (p :: rest) m = if p.1 = m then some p.2 else getattr? rest m := by
  by_cases h : p.1 = m <;> simp [getattr?, List.find?_cons, h]

theorem getattr_setattr_self (a : Attrs) (n : String) (v : ℤ) :
    getattr? (setattr a n v) n = some v := by
  induction a with
  | nil => simp [setattr, getattr_cons, getattr_nil]
  | cons p rest ih =>
    by_cases h : p.1 = n
    · simp [setattr, h, getattr_cons]
    · simpa [setattr, h, getattr_cons] using ih

theorem getattr_setattr_ne (a : Attrs) (n m : String) (v : ℤ) (h : m ≠ n) :
    getattr? (setattr a n v) m = getattr? a m := by
  have hnm : ¬ n = m := fun hh => h hh.symm
  induction a with
  | nil => simp [setattr, getattr_cons, getattr_nil, hnm]
  | cons p rest ih =>
    by_cases hp : p.1 = n
    · have hm : ¬ p.1 = m := by rw [hp]; exact hnm
      simp [setattr, hp, hm, getattr_cons, hnm, h]
    · by_cases hm : p.1 = m
      · simp [setattr, hp, hm, getattr_cons, h]
      · simpa [setattr, hp, hm, getattr_cons, h] using ih

theorem delattr_cons (p : String × ℤ) (rest : Attrs) (n : String) :
    delattr (p :: rest) n = if p.1 = n then delattr rest n else p :: delattr rest n := by
  by_cases h : p.1 = n <;> simp [delattr, List.filter_cons, h]

theorem getattr_delattr_self (a : Attrs) (n : String) :
    getattr? (delattr a n) n = none := by
  induction a with
  | nil => simp [delattr, getattr_nil]
  | cons p rest ih =>
    rw [delattr_cons]
    by_cases h : p.1 = n
    · simpa [h] using ih
    · simpa [h, getattr_cons] using ih

theorem getattr_delattr_ne (a : Attrs) (n m : String) (h : m ≠ n) :
    getattr? (delattr a n) m = getattr? a m := by
  have hnm : ¬ n = m := fun hh => h hh.symm
  induction a with
  | nil => simp [delattr]
  | cons p rest ih =>
    rw [delattr_cons]
    by_cases hp : p.1 = n
    · have hm : ¬ p.1 = m := by rw [hp]; exact hnm
      simpa [hp, hm, getattr_cons, hnm, h] using ih
    · by_cases hm : p.1 = m
      · simp [hp, hm, getattr_cons, hnm, h]
      · simpa [hp, hm, getattr_cons, hnm, h] using ih

theorem save_strip_fst (ignore : List String) (a : Attrs) (m : String) :
    getattr? (save_strip a ignore).1 m = if m ∈ ignore then none else getattr? a m := by
  induction ignore generalizing a with
  | nil => simp [save_strip]
  | cons attr rest ih =>
    cases hv : getattr? a attr with
    | some v =>
      by_cases hm : m = attr
      · subst hm
        by_cases hr : m ∈ rest
        · simp [save_strip, hv, ih, hr]
        · simp [save_strip, hv, ih, hr, getattr_delattr_self]
      · by_cases hr : m ∈ rest
        · simp [save_strip, hv, ih, hr, hm]
        · simp [save_strip, hv, ih, hr, hm, getattr_delattr_ne a attr m hm]
    | none =>
      by_cases hm : m = attr
      · subst hm
        by_cases hr : m ∈ rest
        · simp [save_strip, hv, ih, hr]
        · simp [save_strip, hv, ih, hr]
      · simp [save_strip, hv, ih, hm]

theorem save_strip_snd (ignore : List String) (a : Attrs) (m : String) :
    getattr? (save_strip a ignore).2 m = if m ∈ ignore then getattr? a m else none := by
  induction ignore generalizing a with
  | nil => simp [save_strip, getattr_nil]
  | cons attr rest ih =>
    cases hv : getattr? a attr with
    | some v =>
      by_cases hm : m = attr
      · subst hm
        simp [save_strip, hv, getattr_cons]
      · by_cases hr : m ∈ rest
        · simp [save_strip, hv, getattr_cons, ih, hr, hm, Ne.symm hm,
            getattr_delattr_ne a attr m hm]
        · simp [save_strip, hv, getattr_cons, ih, hr, hm, Ne.symm hm]
    | none =>
      by_cases hm : m = attr
      · subst hm
        by_cases hr : m ∈ rest
        · simp [save_strip, hv, ih, hr]
        · simp [save_strip, hv, ih, hr]
      · simp [save_strip, hv, ih, hm]

theorem save_restore_lookup (ignore : List String) (a : Attrs) (tmp : List (String × ℤ))
    (m : String) :
    getattr? (save_restore a tmp ignore) m =
      if m ∈ ignore ∧ (getattr? tmp m).isSome then getattr? tmp m else getattr? a m := by
  induction ignore generalizing a with
  | nil => simp [save_restore]
  | cons attr rest ih =>
    cases hv : getattr? tmp attr with
    | some v =>
      by_cases hm : m = attr
      · subst hm
        by_cases hr : m ∈ rest
        · simp [save_restore, hv, ih, hr]
        · simp [save_restore, hv, ih, hr, getattr_setattr_self, hv]
      · by_cases hr : m ∈ rest
        · simp [save_restore, hv, ih, hr, hm, getattr_setattr_ne a attr m v hm]
        · simp [save_restore, hv, ih, hr, hm, getattr_setattr_ne a attr m v hm]
    | none =>
      by_cases hm : m = attr
      · subst hm
        by_cases hr : m ∈ rest
        · simp [save_restore, hv, ih, hr]
        · simp [save_restore, hv, ih, hr, hv]
      · simp [save_restore, hv, ih, hm]

/-- Claim C10: for every problem instance and every `ignore_attributes` list,
after `save` returns, every attribute the instance had before the call is
present again with its original value; the ignored attributes are absent from
the pickled state, all other attributes are pickled with their original
values, and names not present on the instance are skipped without error. -/
theorem c10_save_frame (a : Attrs) (ignore : List String) :
    (∀ m, getattr? (save a ignore).2 m = getattr? a m)
    ∧ (∀ m, m ∈ ignore → getattr? (save a ignore).1 m = none)
    ∧ (∀ m, m ∉ ignore → getattr? (save a ignore).1 m = getattr? a m) := by
  by_cases hi : ignore.isEmpty
  · refine ⟨fun m => by simp [save, hi], fun m hm => ?_, fun m _ => by simp [save, hi]⟩
    rw [List.isEmpty_iff] at hi
    simp [hi] at hm
  · have hi' : ignore.isEmpty = false := by simpa using hi
    refine ⟨fun m => ?_, fun m hm => by simp [save, hi', save_strip_fst, hm],
      fun m hm => by simp [save, hi', save_strip_fst, hm]⟩
    simp only [save, hi', Bool.false_eq_true, if_false]
    rw [save_restore_lookup, save_strip_snd, save_strip_fst]
    by_cases hm : m ∈ ignore
    · cases hv : getattr? a m with
      | some v => simp [hm, hv]
      | none => simp [hm, hv]
    · simp [hm]

/-! ## Lemmas: sorting and `npUnique` -/

theorem insertSorted_perm (x : ℕ) (l : List ℕ) : (insertSorted x l).Perm (x :: l) := by
  induction l with
  | nil => simp [insertSorted]
  | cons y ys ih =>
    by_cases h : x ≤ y
    · simp [insertSorted, h]
    · simp only [insertSorted, h, if_false]
      exact (ih.cons y).trans (List.Perm.swap x y ys)

theorem sortNat_perm (l : List ℕ) : (sortNat l).Perm l := by
  induction l with
  | nil => exact List.Perm.refl _
  | cons x xs ih => exact (insertSorted_perm x (sortNat xs)).trans (ih.cons x)

theorem mem_npUnique (l : List ℕ) (a : ℕ) : a ∈ npUnique l ↔ a ∈ l := by
  unfold npUnique
  rw [(sortNat_perm l.dedup).mem_iff, List.mem_dedup]

theorem npUnique_nodup (l : List ℕ) : (npUnique l).Nodup :=
  (sortNat_perm l.dedup).nodup_iff.mpr (List.nodup_dedup l)

/-! ## Lemmas: `setdiff` -/

theorem mem_setdiff (n : ℕ) (fixed : List ℕ) (i : ℕ) :
    i ∈ setdiff n fixed ↔ i < n ∧ i ∉ fixed := by
  simp [setdiff, List.mem_filter, List.mem_range]

theorem setdiff_nodup (n : ℕ) (fixed : List ℕ) : (setdiff n fixed).Nodup :=
  (List.nodup_range n).filter _

theorem length_setdiff (n : ℕ) (fixed : List ℕ) (hnd : fixed.Nodup)
    (hb : ∀ i ∈ fixed, i < n) : (setdiff n fixed).length + fixed.length = n := by
  have hperm : ((List.range n).filter (fun i => decide (i ∈ fixed))).Perm fixed := by
    rw [List.perm_ext_iff_of_nodup ((List.nodup_range n).filter _) hnd]
    intro a
    simp only [List.mem_filter, List.mem_range, decide_eq_true_eq]
    exact ⟨fun h => h.2, fun h => ⟨hb a h, h⟩⟩
  have hsd : setdiff n fixed = (List.range n).filter (fun i => !decide (i ∈ fixed)) := by
    simp only [setdiff, decide_not]
  have htot := length_filter_not_add (List.range n) (fun i => decide (i ∈ fixed))
  rw [List.length_range] at htot
  rw [hsd, ← hperm.length_eq]
  exact htot

/-! ## Lemmas: `assignAt` (numpy fancy assignment) -/

theorem assignAt_nil_vals (v : Vec) (idx : List ℕ) : assignAt v idx [] = v := by
  cases idx <;> rfl

theorem assignAt_cons (v : Vec) (i : ℕ) (is : List ℕ) (w : ℚ) (ws : Vec) :
    assignAt v (i :: is) (w :: ws) = assignAt (v.set i w) is ws := rfl

theorem length_assignAt (idx : List ℕ) (vals : Vec) (v : Vec) :
    (assignAt v idx vals).length = v.length := by
  induction idx generalizing v vals with
  | nil => rfl
  | cons i is ih =>
    cases vals with
    | nil => rw [assignAt_nil_vals]
    | cons w ws => rw [assignAt_cons, ih, List.length_set]

theorem assignAt_not_mem (idx : List ℕ) (vals : Vec) (v : Vec) (k : ℕ) (d : ℚ)
    (hk : k ∉ idx) : (assignAt v idx vals).getD k d = v.getD k d := by
  induction idx generalizing v vals with
  | nil => rfl
  | cons i is ih =>
    cases vals with
    | nil => rw [assignAt_nil_vals]
    | cons w ws =>
      rw [assignAt_cons, ih _ _ (fun h => hk (List.mem_cons_of_mem i h)),
        getD_set_ne _ _ _ _ _ (fun h : k = i => hk (h ▸ List.mem_cons_self i is))]

theorem assignAt_getD_pos (idx : List ℕ) (vals : Vec) (v : Vec) (p : ℕ) (d : ℚ)
    (hnd : idx.Nodup) (hp : p < idx.length) (hpv : p < vals.length)
    (hrange : idx.getD p 0 < v.length) :
    (assignAt v idx vals).getD (idx.getD p 0) d = vals.getD p 0 := by
  induction idx generalizing v vals p with
  | nil => exact absurd hp (by simp)
  | cons i is ih =>
    cases vals with
    | nil => exact absurd hpv (by simp)
    | cons w ws =>
      rw [assignAt_cons]
      cases p with
      | zero =>
        rw [List.getD_cons_zero] at hrange ⊢
        rw [assignAt_not_mem _ _ _ _ _ (List.nodup_cons.mp hnd).1,
          getD_set_self _ _ _ _ hrange, List.getD_cons_zero]
      | succ p =>
        rw [List.getD_cons_succ] at hrange ⊢
        rw [List.getD_cons_succ]
        exact ih _ _ _ (List.nodup_cons.mp hnd).2 (by simpa using hp) (by simpa using hpv)
          (by simpa using hrange)

theorem take_take_sub (s : Vec) (a b : ℕ) :
    (s.take (s.length - a)).take (s.length - a - b) = s.take (s.length - a - b) := by
  rw [List.take_take, Nat.min_eq_left (Nat.sub_le _ _)]

theorem length_inflate_dirichlet (solution : Vec) (iod : List ℕ) (vod : Vec)
    (inod : List ℕ) :
    (inflate_dirichlet solution iod vod inod).length = iod.length + inod.length := by
  unfold inflate_dirichlet
  rw [length_assignAt, length_assignAt, List.length_replicate]

/-- Claim C1: for a problem with Dirichlet conditions, `inflate` builds a
full-length vector scattering the reduced solution into the free indices and
the prescribed values into the fixed indices, by index position; with no
Dirichlet conditions the vector is a direct copy of the input; afterwards the
trailing `num_lagrange_mul_floating` entries are dropped if floating
conditions exist, then the trailing `num_lagrange_mul_binary` entries if
binary conditions exist. -/
theorem c1_inflate (p : ShrinkProblem) (solution : Vec) (iod inod : List ℕ) (vod : Vec)
    (Lb Lf : ℕ)
    (hnd : (iod ++ inod).Nodup)
    (hb : ∀ k ∈ iod ++ inod, k < iod.length + inod.length)
    (hsol : solution.length = inod.length) (hvod : vod.length = iod.length) :
    ((inflate_dirichlet solution iod vod inod).length = iod.length + inod.length
      ∧ (∀ q, q < inod.length →
          (inflate_dirichlet solution iod vod inod).getD (inod.getD q 0) 0
            = solution.getD q 0)
      ∧ (∀ q, q < iod.length →
          (inflate_dirichlet solution iod vod inod).getD (iod.getD q 0) 0
            = vod.getD q 0))
    ∧ (p.dirKeys.isEmpty = true →
        inflate solution p ⟨Lb, Lf, some iod, some inod, some vod⟩ =
          solution.take (solution.length - (if p.floatKeys.isEmpty then 0 else Lf)
            - (if p.binKeys.isEmpty then 0 else Lb)))
    ∧ (p.dirKeys.isEmpty = false →
        inflate solution p ⟨Lb, Lf, some iod, some inod, some vod⟩ =
          (inflate_dirichlet solution iod vod inod).take
            ((iod.length + inod.length) - (if p.floatKeys.isEmpty then 0 else Lf)
              - (if p.binKeys.isEmpty then 0 else Lb))) := by
  obtain ⟨hndF, hndN, hdis⟩ := List.nodup_append.mp hnd
  have hlen := length_inflate_dirichlet solution iod vod inod
  have hrepl : (List.replicate (iod.length + inod.length) (0 : ℚ)).length
      = iod.length + inod.length := List.length_replicate ..
  refine ⟨⟨hlen, fun q hq => ?_, fun q hq => ?_⟩, fun hdir => ?_, fun hdir => ?_⟩
  · -- the free positions receive the reduced solution, positionwise
    have hmem : inod.getD q 0 ∈ inod := getD_mem _ _ _ hq
    have hnotf : inod.getD q 0 ∉ iod := fun hc => hdis hc hmem
    unfold inflate_dirichlet
    rw [assignAt_not_mem _ _ _ _ _ hnotf]
    exact assignAt_getD_pos _ _ _ _ _ hndN hq (hsol ▸ hq)
      (by rw [hrepl]; exact hb _ (List.mem_append_right _ hmem))
  · -- the fixed positions receive the prescribed Dirichlet values, positionwise
    have hmem : iod.getD q 0 ∈ iod := getD_mem _ _ _ hq
    unfold inflate_dirichlet
    exact assignAt_getD_pos _ _ _ _ _ hndF hq (hvod ▸ hq)
      (by rw [length_assignAt, hrepl]; exact hb _ (List.mem_append_left _ hmem))
  · -- no Dirichlet conditions: direct copy, then the trailing drops
    by_cases hf : p.floatKeys.isEmpty <;> by_cases hbin : p.binKeys.isEmpty <;>
      simp [inflate, inflate_floating, inflate_binary, hdir, hf, hbin, take_take_sub,
        List.take_length]
  · -- Dirichlet scatter, then the trailing drops
    rw [← hlen]
    by_cases hf : p.floatKeys.isEmpty <;> by_cases hbin : p.binKeys.isEmpty <;>
      simp [inflate, inflate_floating, inflate_binary, hdir, hf, hbin, take_take_sub,
        List.take_length]

/-- Witness for C1 at a concrete input: two free indices, one fixed index,
one floating and one binary multiplier. -/
theorem c1_inflate_witness :
    ((([0] : List ℕ) ++ [1, 2]).Nodup
      ∧ (∀ k ∈ ([0] : List ℕ) ++ [1, 2], k < 3)
      ∧ ([(4 : ℚ), 5].length = 2) ∧ ([(7 : ℚ)].length = 1))
    ∧ (((inflate_dirichlet [4, 5] [0] [7] [1, 2]).length = [0].length + [1, 2].length
      ∧ (∀ q, q < [1, 2].length →
          (inflate_dirichlet [4, 5] [0] [7] [1, 2]).getD ([1, 2].getD q 0) 0
            = [(4 : ℚ), 5].getD q 0)
      ∧ (∀ q, q < [0].length →
          (inflate_dirichlet [4, 5] [0] [7] [1, 2]).getD (([0] : List ℕ).getD q 0) 0
            = [(7 : ℚ)].getD q 0))
    ∧ ((ShrinkProblem.mk [3] (fun _ => ⟨[0], [1], 2⟩) [2] [1] (fun _ => .const_scalar 0)
          ⟨[], [], [], [], []⟩ (fun _ => 0) (fun _ => [])).dirKeys.isEmpty = true →
        inflate [4, 5]
          (ShrinkProblem.mk [3] (fun _ => ⟨[0], [1], 2⟩) [2] [1] (fun _ => .const_scalar 0)
            ⟨[], [], [], [], []⟩ (fun _ => 0) (fun _ => []))
          ⟨1, 1, some [0], some [1, 2], some [7]⟩ =
          List.take ([(4 : ℚ), 5].length
            - (if ([2] : List ℕ).isEmpty then 0 else 1)
            - (if ([3] : List ℕ).isEmpty then 0 else 1)) [4, 5])
    ∧ ((ShrinkProblem.mk [3] (fun _ => ⟨[0], [1], 2⟩) [2] [1] (fun _ => .const_scalar 0)
          ⟨[], [], [], [], []⟩ (fun _ => 0) (fun _ => [])).dirKeys.isEmpty = false →
        inflate [4, 5]
          (ShrinkProblem.mk [3] (fun _ => ⟨[0], [1], 2⟩) [2] [1] (fun _ => .const_scalar 0)
            ⟨[], [], [], [], []⟩ (fun _ => 0) (fun _ => []))
          ⟨1, 1, some [0], some [1, 2], some [7]⟩ =
          (inflate_dirichlet [4, 5] [0] [7] [1, 2]).take
            (([0].length + [1, 2].length) - (if ([2] : List ℕ).isEmpty then 0 else 1)
              - (if ([3] : List ℕ).isEmpty then 0 else 1)))) :=
  ⟨⟨by decide, by decide, rfl, rfl⟩,
    c1_inflate
      (ShrinkProblem.mk [3] (fun _ => ⟨[0], [1], 2⟩) [2] [1] (fun _ => .const_scalar 0)
        ⟨[], [], [], [], []⟩ (fun _ => 0) (fun _ => []))
      [4, 5] [0] [1, 2] [7] 1 1 (by decide) (by decide) rfl rfl⟩

/-! ## Lemmas: entries of the reduced system -/

theorem getEntry_submatrix (A : Mat) (rows cols : List ℕ) (pr pc : ℕ)
    (hr : pr < rows.length) (hc : pc < cols.length) :
    getEntry (submatrix A rows cols) pr pc
      = getEntry A (rows.getD pr 0) (cols.getD pc 0) := by
  unfold getEntry submatrix
  rw [getD_map' rows _ pr [] 0 hr, getD_map' cols _ pc 0 0 hc]
  rfl

theorem getD_submatrix_row (A : Mat) (rows cols : List ℕ) (pr : ℕ)
    (hr : pr < rows.length) :
    (submatrix A rows cols).getD pr [] = cols.map (fun j => getEntry A (rows.getD pr 0) j) := by
  unfold submatrix
  rw [getD_map' rows _ pr [] 0 hr]

theorem length_vsub (a b : Vec) : (vsub a b).length = min a.length b.length :=
  List.length_zipWith ..

theorem length_submatrix (A : Mat) (rows cols : List ℕ) :
    (submatrix A rows cols).length = rows.length := List.length_map ..

theorem getD_vsub (a b : Vec) (p : ℕ) (hpa : p < a.length) (hpb : p < b.length) :
    (vsub a b).getD p 0 = a.getD p 0 - b.getD p 0 := by
  induction a generalizing b p with
  | nil => simp at hpa
  | cons x xs ih =>
    cases b with
    | nil => simp at hpb
    | cons y ys =>
      cases p with
      | zero => rfl
      | succ p =>
        simp only [vsub, List.zipWith_cons_cons, List.getD_cons_succ]
        exact ih ys p (by simpa using hpa) (by simpa using hpb)

theorem length_matVec (A : Mat) (v : Vec) : (matVec A v).length = A.length :=
  List.length_map ..

theorem getD_matVec (A : Mat) (v : Vec) (p : ℕ) (hp : p < A.length) :
    (matVec A v).getD p 0 = (((A.getD p []).zip v).map (fun q => q.1 * q.2)).sum :=
  getD_map' A _ p 0 [] hp

theorem zip_map_mul_sum (fixed : List ℕ) (vals : Vec) (f : ℕ → ℚ)
    (hlen : vals.length = fixed.length) :
    (((fixed.map f).zip vals).map (fun q => q.1 * q.2)).sum
      = ((List.range fixed.length).map
          (fun q => f (fixed.getD q 0) * vals.getD q 0)).sum := by
  induction fixed generalizing vals with
  | nil =>
    rw [List.length_eq_zero.mp hlen]
    rfl
  | cons i is ih =>
    cases vals with
    | nil => simp at hlen
    | cons w ws =>
      simp only [List.map_cons, List.zip_cons_cons, List.sum_cons, List.length_cons]
      rw [List.range_succ_eq_map, List.map_cons, List.sum_cons, List.map_map]
      have htail : ((List.range is.length).map
          ((fun q => f ((i :: is).getD q 0) * (w :: ws).getD q 0) ∘ (· + 1)))
          = (List.range is.length).map (fun q => f (is.getD q 0) * ws.getD q 0) := by
        exact List.map_congr_left (fun q _ => by
          simp [Function.comp, List.getD_cons_succ])
      rw [htail, ih ws (by simpa using hlen)]
      simp [List.getD_cons_zero]

/-! ## Lemmas: value/index arrays stay aligned through the Dirichlet pipeline -/

theorem dirichlet_values_length (v : BCValue) (count : ℕ) (vs : List ℚ)
    (h : dirichlet_values v count = .ok vs) : vs.length = count := by
  cases v with
  | const_scalar c => cases h; simp
  | const_array a =>
    by_cases ha : a.length = count
    · simp only [dirichlet_values, ha, ne_eq, not_true_eq_false, if_false] at h
      cases h; exact ha
    · simp [dirichlet_values, ha] at h
  | const_other => simp [dirichlet_values] at h
  | time_dep f => cases h; simp
  | other => simp [dirichlet_values] at h

theorem calc_pair_lengths (getBc : ℕ → BCValue) (msh : Mesh) (regionDim : ℤ → ℕ)
    (regionsOfBc : ℕ → List ℤ) (key : ℕ) (pr : List ℕ × List ℚ)
    (h : calc_pair_for_dirichlet getBc msh regionDim regionsOfBc key = .ok pr) :
    pr.2.length = pr.1.length := by
  unfold calc_pair_for_dirichlet at h
  cases hv : dirichlet_values (getBc key) (dirichletNodeSet msh regionDim regionsOfBc key).length
    with
  | error e =>
    simp only [hv] at h
    exact Except.noConfusion h
  | ok vs =>
    simp only [hv] at h
    injection h with h2
    rw [← h2]
    exact dirichlet_values_length _ _ _ hv

theorem calc_pairs_lengths (getBc : ℕ → BCValue) (msh : Mesh) (regionDim : ℤ → ℕ)
    (regionsOfBc : ℕ → List ℤ) (keys : List ℕ) (prs : List (List ℕ × List ℚ))
    (h : calc_pairs_for_dirichlet getBc msh regionDim regionsOfBc keys = .ok prs) :
    ∀ pr ∈ prs, pr.2.length = pr.1.length := by
  induction keys generalizing prs with
  | nil => cases h; simp
  | cons key rest ih =>
    unfold calc_pairs_for_dirichlet at h
    cases h1 : calc_pair_for_dirichlet getBc msh regionDim regionsOfBc key with
    | error e => rw [h1] at h; cases h
    | ok pr0 =>
      rw [h1] at h
      cases h2 : calc_pairs_for_dirichlet getBc msh regionDim regionsOfBc rest with
      | error e => rw [h2] at h; cases h
      | ok prs0 =>
        rw [h2] at h
        cases h
        intro pr hpr
        rcases List.mem_cons.mp hpr with hpr | hpr
        · exact hpr ▸ calc_pair_lengths _ _ _ _ _ _ h1
        · exact ih prs0 h2 pr hpr

theorem resolveStep_lengths (prev idx : List ℕ) (vals : List ℚ)
    (h : vals.length = idx.length) :
    (resolveStep prev idx vals).2.length = (resolveStep prev idx vals).1.length := by
  unfold resolveStep
  by_cases hc : (idx.filter (fun m => decide (m ∈ prev))).length > 0
  · simp [hc]
  · simp [hc, h]

theorem resolveLoop_lengths (prs : List (List ℕ × List ℚ)) (prev : List ℕ)
    (h : ∀ pr ∈ prs, pr.2.length = pr.1.length) :
    ∀ pr ∈ resolveLoop prev prs, pr.2.length = pr.1.length := by
  induction prs generalizing prev with
  | nil => simp [resolveLoop]
  | cons pr0 rest ih =>
    intro pr hpr
    unfold resolveLoop at hpr
    rcases List.mem_cons.mp hpr with hpr | hpr
    · rw [hpr]
      exact resolveStep_lengths _ _ _ (h pr0 (List.mem_cons_self _ _))
    · exact ih _ (fun q hq => h q (List.mem_cons_of_mem _ hq)) pr hpr

theorem resolveDirichlet_lengths (prs : List (List ℕ × List ℚ))
    (h : ∀ pr ∈ prs, pr.2.length = pr.1.length) :
    ∀ pr ∈ resolveDirichlet prs, pr.2.length = pr.1.length := by
  cases prs with
  | nil => simp [resolveDirichlet]
  | cons pr0 rest =>
    intro pr hpr
    unfold resolveDirichlet at hpr
    rcases List.mem_cons.mp hpr with hpr | hpr
    · exact hpr ▸ h pr0 (List.mem_cons_self _ _)
    · exact resolveLoop_lengths rest pr0.1
        (fun q hq => h q (List.mem_cons_of_mem _ hq)) pr hpr

theorem calc_values_lengths (getBc : ℕ → BCValue) (msh : Mesh) (regionDim : ℤ → ℕ)
    (regionsOfBc : ℕ → List ℤ) (keys : List ℕ) (pairs : List (List ℕ × List ℚ))
    (h : calc_values_for_dirichlet getBc msh regionDim regionsOfBc keys = .ok pairs) :
    ∀ pr ∈ pairs, pr.2.length = pr.1.length := by
  unfold calc_values_for_dirichlet at h
  cases hcp : calc_pairs_for_dirichlet getBc msh regionDim regionsOfBc keys with
  | error e => rw [hcp] at h; cases h
  | ok prs =>
    rw [hcp] at h
    cases h
    exact resolveDirichlet_lengths prs (calc_pairs_lengths _ _ _ _ _ _ hcp)

theorem flatten_length_eq (pairs : List (List ℕ × List ℚ))
    (h : ∀ pr ∈ pairs, pr.2.length = pr.1.length) :
    ((pairs.map (fun pr => pr.2)).flatten).length
      = ((pairs.map (fun pr => pr.1)).flatten).length := by
  induction pairs with
  | nil => rfl
  | cons pr rest ih =>
    simp only [List.map_cons, List.flatten_cons, List.length_append]
    rw [h pr (List.mem_cons_self _ _), ih (fun q hq => h q (List.mem_cons_of_mem _ hq))]

/-- Claim C2: for every (matrix, rhs) pair and every non-empty set of Dirichlet
conditions, `shrink_dirichlet` computes the reduced rhs as
`rhs[free] - matrix[free, fixed] @ values_fixed`, the reduced matrix as
`matrix[free, free]`, where the free indices are exactly the complement of the
Dirichlet-fixed indices in the row range of the input matrix. -/
theorem c2_shrink_dirichlet (A : Mat) (r : Vec) (getBc : ℕ → BCValue) (keys : List ℕ)
    (msh : Mesh) (regionDim : ℤ → ℕ) (regionsOfBc : ℕ → List ℤ) (res : DirichletResult)
    (hkeys : keys ≠ [])
    (hok : shrink_dirichlet A r getBc keys msh regionDim regionsOfBc = .ok res) :
    (∀ i, i ∈ res.indices_not_on_dirichlet ↔ i < A.length ∧ i ∉ res.indices_on_dirichlet)
    ∧ res.matrix.length = res.indices_not_on_dirichlet.length
    ∧ (∀ pr pc, pr < res.indices_not_on_dirichlet.length →
        pc < res.indices_not_on_dirichlet.length →
        getEntry res.matrix pr pc
          = getEntry A (res.indices_not_on_dirichlet.getD pr 0)
              (res.indices_not_on_dirichlet.getD pc 0))
    ∧ res.rhs.length = res.indices_not_on_dirichlet.length
    ∧ (∀ pr, pr < res.indices_not_on_dirichlet.length →
        res.rhs.getD pr 0
          = r.getD (res.indices_not_on_dirichlet.getD pr 0) 0
            - ((List.range res.indices_on_dirichlet.length).map
                (fun q => getEntry A (res.indices_not_on_dirichlet.getD pr 0)
                    (res.indices_on_dirichlet.getD q 0)
                  * res.values_on_dirichlet.getD q 0)).sum) := by
  unfold shrink_dirichlet at hok
  cases hcalc : calc_values_for_dirichlet getBc msh regionDim regionsOfBc keys with
  | error e =>
    simp only [hcalc] at hok
    exact Except.noConfusion hok
  | ok pairs =>
    simp only [hcalc] at hok
    injection hok with h2
    subst h2
    dsimp only
    have hlenv : ((pairs.map (fun pr => pr.2)).flatten).length
        = ((pairs.map (fun pr => pr.1)).flatten).length :=
      flatten_length_eq pairs (calc_values_lengths _ _ _ _ _ _ hcalc)
    refine ⟨fun i => mem_setdiff _ _ i, List.length_map .., fun pr pc hpr hpc => ?_,
      ?_, fun pr hpr => ?_⟩
    · exact getEntry_submatrix A _ _ pr pc hpr hpc
    · rw [length_vsub, List.length_map, length_matVec, length_submatrix, Nat.min_self]
    · have hfree : pr < (setdiff A.length ((pairs.map (fun pr => pr.1)).flatten)).length := hpr
      rw [getD_vsub _ _ _ (by simpa using hfree)
          (by rw [length_matVec, length_submatrix]; exact hfree),
        getD_map' _ _ _ _ 0 hfree,
        getD_matVec _ _ _ (by rw [length_submatrix]; exact hfree),
        getD_submatrix_row A _ _ pr hfree,
        zip_map_mul_sum _ _ _ hlenv]

/-- Witness for C2: a 3×3 matrix with node 0 fixed to value 3 by a Dirichlet
condition on a dimension-0 region. -/
theorem c2_shrink_dirichlet_witness :
    (([1] : List ℕ) ≠ []
      ∧ shrink_dirichlet [[2, 1, 0], [1, 2, 1], [0, 1, 2]] [10, 11, 12]
          (fun _ => .const_scalar 3) [1] ⟨[5, 0, 0], [], [], [], []⟩ (fun _ => 0)
          (fun _ => [5]) = .ok ⟨[[2, 1], [1, 2]], [8, 12], [0], [1, 2], [3]⟩)
    ∧ ((∀ i, i ∈ (DirichletResult.mk [[2, 1], [1, 2]] [8, 12] [0] [1, 2] [3]).indices_not_on_dirichlet
          ↔ i < ([[2, 1, 0], [1, 2, 1], [0, 1, 2]] : Mat).length
            ∧ i ∉ (DirichletResult.mk [[2, 1], [1, 2]] [8, 12] [0] [1, 2] [3]).indices_on_dirichlet)
      ∧ (DirichletResult.mk [[2, 1], [1, 2]] [8, 12] [0] [1, 2] [3]).matrix.length
          = (DirichletResult.mk [[2, 1], [1, 2]] [8, 12] [0] [1, 2] [3]).indices_not_on_dirichlet.length
      ∧ (∀ pr pc,
          pr < (DirichletResult.mk [[2, 1], [1, 2]] [8, 12] [0] [1, 2] [3]).indices_not_on_dirichlet.length →
          pc < (DirichletResult.mk [[2, 1], [1, 2]] [8, 12] [0] [1, 2] [3]).indices_not_on_dirichlet.length →
          getEntry (DirichletResult.mk [[2, 1], [1, 2]] [8, 12] [0] [1, 2] [3]).matrix pr pc
            = getEntry [[2, 1, 0], [1, 2, 1], [0, 1, 2]]
                ((DirichletResult.mk [[2, 1], [1, 2]] [8, 12] [0] [1, 2] [3]).indices_not_on_dirichlet.getD pr 0)
                ((DirichletResult.mk [[2, 1], [1, 2]] [8, 12] [0] [1, 2] [3]).indices_not_on_dirichlet.getD pc 0))
      ∧ (DirichletResult.mk [[2, 1], [1, 2]] [8, 12] [0] [1, 2] [3]).rhs.length
          = (DirichletResult.mk [[2, 1], [1, 2]] [8, 12] [0] [1, 2] [3]).indices_not_on_dirichlet.length
      ∧ (∀ pr,
          pr < (DirichletResult.mk [[2, 1], [1, 2]] [8, 12] [0] [1, 2] [3]).indices_not_on_dirichlet.length →
          (DirichletResult.mk [[2, 1], [1, 2]] [8, 12] [0] [1, 2] [3]).rhs.getD pr 0
            = ([10, 11, 12] : Vec).getD
                ((DirichletResult.mk [[2, 1], [1, 2]] [8, 12] [0] [1, 2] [3]).indices_not_on_dirichlet.getD pr 0) 0
              - ((List.range (DirichletResult.mk [[2, 1], [1, 2]] [8, 12] [0] [1, 2] [3]).indices_on_dirichlet.length).map
                  (fun q => getEntry [[2, 1, 0], [1, 2, 1], [0, 1, 2]]
                      ((DirichletResult.mk [[2, 1], [1, 2]] [8, 12] [0] [1, 2] [3]).indices_not_on_dirichlet.getD pr 0)
                      ((DirichletResult.mk [[2, 1], [1, 2]] [8, 12] [0] [1, 2] [3]).indices_on_dirichlet.getD q 0)
                    * (DirichletResult.mk [[2, 1], [1, 2]] [8, 12] [0] [1, 2] [3]).values_on_dirichlet.getD q 0)).sum)) :=
  ⟨⟨by decide, by with_unfolding_all decide⟩,
    c2_shrink_dirichlet [[2, 1, 0], [1, 2, 1], [0, 1, 2]] [10, 11, 12]
      (fun _ => .const_scalar 3) [1] ⟨[5, 0, 0], [], [], [], []⟩ (fun _ => 0) (fun _ => [5])
      ⟨[[2, 1], [1, 2]], [8, 12], [0], [1, 2], [3]⟩ (by decide) (by with_unfolding_all decide)⟩

/-! ## Lemmas: Dirichlet value errors propagate -/

theorem calc_pairs_error_of_mem (getBc : ℕ → BCValue) (msh : Mesh) (regionDim : ℤ → ℕ)
    (regionsOfBc : ℕ → List ℤ) (keys : List ℕ) (key : ℕ) (e : DirErr)
    (hkey : key ∈ keys)
    (h : calc_pair_for_dirichlet getBc msh regionDim regionsOfBc key = .error e) :
    ∃ e2, calc_pairs_for_dirichlet getBc msh regionDim regionsOfBc keys = .error e2 := by
  induction keys with
  | nil => simp at hkey
  | cons k rest ih =>
    cases h1 : calc_pair_for_dirichlet getBc msh regionDim regionsOfBc k with
    | error e1 =>
      refine ⟨e1, ?_⟩
      unfold calc_pairs_for_dirichlet
      rw [h1]
    | ok pr0 =>
      rcases List.mem_cons.mp hkey with hkey | hkey
      · rw [← hkey] at h1
        rw [h1] at h
        exact Except.noConfusion h
      · obtain ⟨e2, h2⟩ := ih hkey
        refine ⟨e2, ?_⟩
        unfold calc_pairs_for_dirichlet
        rw [h1, h2]

theorem shrink_dirichlet_error (A : Mat) (r : Vec) (getBc : ℕ → BCValue) (keys : List ℕ)
    (msh : Mesh) (regionDim : ℤ → ℕ) (regionsOfBc : ℕ → List ℤ) (e : DirErr)
    (h : calc_pairs_for_dirichlet getBc msh regionDim regionsOfBc keys = .error e) :
    shrink_dirichlet A r getBc keys msh regionDim regionsOfBc = .error e := by
  unfold shrink_dirichlet calc_values_for_dirichlet
  rw [h]
  rfl

/-- Claim C9: during Dirichlet value computation, a constant array value whose
size differs from the resolved node-set size raises the dimension-mismatch
error, a value that is neither scalar nor array nor callable raises the
unsupported-type error, and in either case the whole `shrink` fails with an
error instead of returning a partial reduced system. -/
theorem c9_dirichlet_value_errors (A : Mat) (r : Vec) (p : ShrinkProblem) (key : ℕ)
    (hkey : key ∈ p.dirKeys)
    (hbad : (∃ vs, p.getDir key = .const_array vs
        ∧ vs.length ≠ (dirichletNodeSet p.mesh p.regionDim p.regionsOfBc key).length)
      ∨ p.getDir key = .const_other ∨ p.getDir key = .other) :
    (∀ vs, p.getDir key = .const_array vs →
        vs.length ≠ (dirichletNodeSet p.mesh p.regionDim p.regionsOfBc key).length →
        calc_pair_for_dirichlet p.getDir p.mesh p.regionDim p.regionsOfBc key
          = .error .dimensionMismatch)
    ∧ (p.getDir key = .const_other →
        calc_pair_for_dirichlet p.getDir p.mesh p.regionDim p.regionsOfBc key
          = .error .typeNotSupported)
    ∧ (p.getDir key = .other →
        calc_pair_for_dirichlet p.getDir p.mesh p.regionDim p.regionsOfBc key
          = .error .notImplemented)
    ∧ (∃ e, shrink A r p = .error e) := by
  have harr : ∀ vs, p.getDir key = .const_array vs →
      vs.length ≠ (dirichletNodeSet p.mesh p.regionDim p.regionsOfBc key).length →
      calc_pair_for_dirichlet p.getDir p.mesh p.regionDim p.regionsOfBc key
        = .error .dimensionMismatch := by
    intro vs hv hlen
    unfold calc_pair_for_dirichlet
    simp only [hv, dirichlet_values]
    rw [if_pos hlen]
  have hoth : p.getDir key = .const_other →
      calc_pair_for_dirichlet p.getDir p.mesh p.regionDim p.regionsOfBc key
        = .error .typeNotSupported := by
    intro hv
    unfold calc_pair_for_dirichlet
    simp only [hv, dirichlet_values]
  have hni : p.getDir key = .other →
      calc_pair_for_dirichlet p.getDir p.mesh p.regionDim p.regionsOfBc key
        = .error .notImplemented := by
    intro hv
    unfold calc_pair_for_dirichlet
    simp only [hv, dirichlet_values]
  refine ⟨harr, hoth, hni, ?_⟩
  have hpair : ∃ e0, calc_pair_for_dirichlet p.getDir p.mesh p.regionDim p.regionsOfBc key
      = .error e0 := by
    rcases hbad with ⟨vs, hv, hlen⟩ | hv | hv
    · exact ⟨_, harr vs hv hlen⟩
    · exact ⟨_, hoth hv⟩
    · exact ⟨_, hni hv⟩
  obtain ⟨e0, hpair⟩ := hpair
  obtain ⟨e2, hcp⟩ := calc_pairs_error_of_mem p.getDir p.mesh p.regionDim p.regionsOfBc
    p.dirKeys key e0 hkey hpair
  have hde : p.dirKeys.isEmpty = false := by
    cases hd : p.dirKeys with
    | nil => rw [hd] at hkey; simp at hkey
    | cons a l => simp [hd]
  refine ⟨e2, ?_⟩
  unfold shrink
  simp only [hde, Bool.false_eq_true, if_false]
  rw [shrink_dirichlet_error _ _ _ _ _ _ _ _ hcp]

/-- Witness for C9: a Dirichlet condition carrying a 2-element array on a
1-node region. -/
theorem c9_dirichlet_value_errors_witness :
    ((1 : ℕ) ∈ [1]
      ∧ ((∃ vs, (fun _ : ℕ => BCValue.const_array [1, 2]) 1 = .const_array vs
          ∧ vs.length ≠ (dirichletNodeSet ⟨[5, 0, 0], [], [], [], []⟩ (fun _ => 0)
              (fun _ => [5]) 1).length)))
    ∧ (∃ e, shrink [[2, 1, 0], [1, 2, 1], [0, 1, 2]] [10, 11, 12]
        (ShrinkProblem.mk [] (fun _ => ⟨[], [], 0⟩) [] [1] (fun _ => .const_array [1, 2])
          ⟨[5, 0, 0], [], [], [], []⟩ (fun _ => 0) (fun _ => [5])) = .error e) :=
  ⟨⟨by decide, ⟨[1, 2], rfl, by decide⟩⟩,
    (c9_dirichlet_value_errors [[2, 1, 0], [1, 2, 1], [0, 1, 2]] [10, 11, 12]
      (ShrinkProblem.mk [] (fun _ => ⟨[], [], 0⟩) [] [1] (fun _ => .const_array [1, 2])
        ⟨[5, 0, 0], [], [], [], []⟩ (fun _ => 0) (fun _ => [5])) 1 (by decide)
      (Or.inl ⟨[1, 2], rfl, by decide⟩)).2.2.2⟩

/-! ## Lemmas: the Dirichlet intersection resolution -/

theorem filter_map_comm {α β : Type} (f : α → β) (p : β → Bool) (l : List α) :
    (l.map f).filter p = (l.filter (fun a => p (f a))).map f := by
  induction l with
  | nil => rfl
  | cons a as ih =>
    by_cases h : p (f a) = true
    · simp [List.filter_cons, h, ih]
    · simp [List.filter_cons, h, ih]

theorem getD_take' {α : Type} (l : List α) (k j : ℕ) (d : α) (hj : j < k) :
    (l.take k).getD j d = l.getD j d := by
  induction l generalizing k j with
  | nil => simp
  | cons a as ih =>
    cases k with
    | zero => omega
    | succ k =>
      rw [List.take_succ_cons]
      cases j with
      | zero => rfl
      | succ j =>
        rw [List.getD_cons_succ, List.getD_cons_succ]
        exact ih k j (by omega)

theorem mem_indicesCut (prev idx : List ℕ) (hnd : idx.Nodup) (pp : ℕ) :
    pp ∈ (idx.filter (fun m => decide (m ∈ prev))).map (fun m => idx.indexOf m)
      ↔ pp < idx.length ∧ idx.getD pp 0 ∈ prev := by
  constructor
  · intro hmem
    obtain ⟨m, hm, hidx⟩ := List.mem_map.mp hmem
    obtain ⟨hmidx, hmprev⟩ := List.mem_filter.mp hm
    have hmprev' : m ∈ prev := by simpa using hmprev
    have hlt : idx.indexOf m < idx.length := List.indexOf_lt_length.mpr hmidx
    refine ⟨hidx ▸ hlt, ?_⟩
    have hg := List.indexOf_get hlt
    rw [List.get_eq_getElem] at hg
    rw [← hidx, List.getD_eq_getElem _ _ hlt, hg]
    exact hmprev'
  · rintro ⟨hlt, hmem⟩
    refine List.mem_map.mpr ⟨idx.getD pp 0,
      List.mem_filter.mpr ⟨getD_mem _ _ _ hlt, by simpa using hmem⟩, ?_⟩
    have hgd : idx.getD pp 0 = idx.get ⟨pp, hlt⟩ := by
      rw [List.getD_eq_getElem _ _ hlt, List.get_eq_getElem]
    rw [hgd, List.get_indexOf hnd]

theorem range_filter_map_getD_fst (idx : List ℕ) (P : ℕ → Bool) :
    ((List.range idx.length).filter (fun p => P (idx.getD p 0))).map (fun p => idx.getD p 0)
      = idx.filter P := by
  induction idx with
  | nil => rfl
  | cons i is ih =>
    rw [List.length_cons, List.range_succ_eq_map, List.filter_cons, List.getD_cons_zero]
    have hshift : ((List.range is.length).map Nat.succ).filter
          (fun p => P ((i :: is).getD p 0))
        = ((List.range is.length).filter (fun q => P (is.getD q 0))).map Nat.succ := by
      rw [filter_map_comm]
      exact congrArg (List.map Nat.succ) (List.filter_congr (fun a _ => rfl))
    have hcomp : ((fun p => (i :: is).getD p 0) ∘ Nat.succ) = (fun q => is.getD q 0) := rfl
    cases hP : P i with
    | true =>
      rw [if_pos rfl, List.map_cons, hshift, List.map_map, hcomp, ih, List.filter_cons, hP,
        if_pos rfl]
      rfl
    | false =>
      rw [if_neg (by decide), hshift, List.map_map, hcomp, ih, List.filter_cons, hP,
        if_neg (by decide)]

theorem range_filter_map_getD_snd (idx : List ℕ) (vals : List ℚ) (P : ℕ → Bool)
    (hlen : vals.length = idx.length) :
    ((List.range idx.length).filter (fun p => P (idx.getD p 0))).map (fun p => vals.getD p 0)
      = ((idx.zip vals).filter (fun q => P q.1)).map Prod.snd := by
  induction idx generalizing vals with
  | nil =>
    rw [List.length_eq_zero.mp hlen]
    rfl
  | cons i is ih =>
    cases vals with
    | nil => simp at hlen
    | cons w ws =>
      have hlen' : ws.length = is.length := by simpa using hlen
      rw [List.length_cons, List.range_succ_eq_map, List.filter_cons, List.getD_cons_zero,
        List.zip_cons_cons, List.filter_cons]
      dsimp only
      have hshift : ((List.range is.length).map Nat.succ).filter
            (fun p => P ((i :: is).getD p 0))
          = ((List.range is.length).filter (fun q => P (is.getD q 0))).map Nat.succ := by
        rw [filter_map_comm]
        exact congrArg (List.map Nat.succ) (List.filter_congr (fun a _ => rfl))
      have hcompw : ((fun p => (w :: ws).getD p 0) ∘ Nat.succ) = (fun q => ws.getD q 0) := rfl
      cases hP : P i with
      | true =>
        rw [if_pos rfl, if_pos rfl, List.map_cons, hshift, List.map_map, hcompw, ih ws hlen',
          List.map_cons]
        rfl
      | false =>
        rw [if_neg (by decide), if_neg (by decide), hshift, List.map_map, hcompw, ih ws hlen']

theorem resolveStep_spec (prev idx : List ℕ) (vals : List ℚ) (hnd : idx.Nodup)
    (hlen : vals.length = idx.length) :
    resolveStep prev idx vals
      = (idx.filter (fun m => decide (m ∉ prev)),
         ((idx.zip vals).filter (fun q => decide (q.1 ∉ prev))).map Prod.snd) := by
  simp only [resolveStep]
  by_cases hc : (idx.filter (fun m => decide (m ∈ prev))).length > 0
  · rw [if_pos hc]
    have hkeep : setdiff idx.length
          ((idx.filter (fun m => decide (m ∈ prev))).map (fun m => idx.indexOf m))
        = (List.range idx.length).filter (fun pp => decide (idx.getD pp 0 ∉ prev)) := by
      unfold setdiff
      refine List.filter_congr ?_
      intro pp hpp
      rw [List.mem_range] at hpp
      refine decide_eq_decide.mpr (not_congr ?_)
      rw [mem_indicesCut prev idx hnd pp]
      exact ⟨fun h => h.2, fun h => ⟨hpp, h⟩⟩
    rw [hkeep]
    rw [range_filter_map_getD_fst idx (fun m => decide (m ∉ prev)),
      range_filter_map_getD_snd idx vals (fun m => decide (m ∉ prev)) hlen]
  · rw [if_neg hc]
    have hall : ∀ m ∈ idx, m ∉ prev := by
      intro m hm hmem
      have hmf : m ∈ idx.filter (fun m => decide (m ∈ prev)) :=
        List.mem_filter.mpr ⟨hm, by simpa using hmem⟩
      exact hc (List.length_pos.mpr (List.ne_nil_of_mem hmf))
    have h1 : idx.filter (fun m => decide (m ∉ prev)) = idx :=
      List.filter_eq_self.mpr (fun a ha => by simpa using hall a ha)
    have h2 : (idx.zip vals).filter (fun q => decide (q.1 ∉ prev)) = idx.zip vals :=
      List.filter_eq_self.mpr (fun q hq => by
        have hq1 : q.1 ∈ idx := by
          obtain ⟨a, b⟩ := q
          exact (List.of_mem_zip hq).1
        simpa using hall q.1 hq1)
    rw [h1, h2, List.map_snd_zip idx vals (le_of_eq hlen)]

theorem mem_filter_append_iff (prev l X : List ℕ) (m : ℕ) :
    (m ∈ (prev ++ l.filter (fun x => decide (x ∉ prev))) ++ X) ↔ m ∈ prev ++ (l ++ X) := by
  simp only [List.mem_append, List.mem_filter, decide_eq_true_eq]
  tauto

theorem resolveLoop_spec (prs : List (List ℕ × List ℚ)) (prev : List ℕ)
    (hnd : ∀ pr ∈ prs, pr.1.Nodup) (hlen : ∀ pr ∈ prs, pr.2.length = pr.1.length) :
    (resolveLoop prev prs).length = prs.length
    ∧ ∀ k, k < prs.length →
        (resolveLoop prev prs).getD k ([], [])
          = ((prs.getD k ([], [])).1.filter
              (fun m => decide (m ∉ prev ++ ((prs.take k).map (fun pr => pr.1)).flatten)),
             (((prs.getD k ([], [])).1.zip (prs.getD k ([], [])).2).filter
               (fun q => decide
                 (q.1 ∉ prev ++ ((prs.take k).map (fun pr => pr.1)).flatten))).map
               Prod.snd) := by
  induction prs generalizing prev with
  | nil => exact ⟨rfl, by simp⟩
  | cons pr0 rest ih =>
    have hstep := resolveStep_spec prev pr0.1 pr0.2 (hnd pr0 (List.mem_cons_self _ _))
      (hlen pr0 (List.mem_cons_self _ _))
    obtain ⟨ihlen, ihspec⟩ := ih (prev ++ (resolveStep prev pr0.1 pr0.2).1)
      (fun q hq => hnd q (List.mem_cons_of_mem _ hq))
      (fun q hq => hlen q (List.mem_cons_of_mem _ hq))
    have hcons : resolveLoop prev (pr0 :: rest)
        = resolveStep prev pr0.1 pr0.2
          :: resolveLoop (prev ++ (resolveStep prev pr0.1 pr0.2).1) rest := rfl
    constructor
    · simp [hcons, ihlen]
    · intro k hk
      cases k with
      | zero =>
        rw [hcons, List.getD_cons_zero, hstep]
        simp only [List.take_zero, List.map_nil, List.flatten_nil, List.append_nil,
          List.getD_cons_zero]
      | succ k =>
        rw [hcons, List.getD_cons_succ, ihspec k (by simpa using hk)]
        rw [hstep]
        simp only [List.getD_cons_succ, List.take_succ_cons, List.map_cons, List.flatten_cons]
        refine congrArg₂ Prod.mk ?_ ?_
        · refine List.filter_congr ?_
          intro m _
          exact decide_eq_decide.mpr (not_congr (by
            rw [List.append_assoc prev, ← List.append_assoc]
            exact mem_filter_append_iff prev pr0.1 _ m))
        · refine congrArg (List.map Prod.snd) (List.filter_congr ?_)
          intro q _
          exact decide_eq_decide.mpr (not_congr (by
            rw [List.append_assoc prev, ← List.append_assoc]
            exact mem_filter_append_iff prev pr0.1 _ q.1))

theorem mem_flatten_take (pairs : List (List ℕ × List ℚ)) (j : ℕ) (m : ℕ) :
    m ∈ ((pairs.take j).map (fun pr => pr.1)).flatten
      ↔ ∃ i, i < j ∧ i < pairs.length ∧ m ∈ (pairs.getD i ([], [])).1 := by
  induction pairs generalizing j with
  | nil => simp
  | cons p rest ih =>
    cases j with
    | zero => simp
    | succ j =>
      rw [List.take_succ_cons, List.map_cons, List.flatten_cons, List.mem_append, ih j]
      constructor
      · rintro (hm | ⟨i, hij, hil, hm⟩)
        · exact ⟨0, Nat.succ_pos j, Nat.succ_pos _, hm⟩
        · exact ⟨i + 1, Nat.succ_lt_succ hij, Nat.succ_lt_succ hil, by simpa using hm⟩
      · rintro ⟨i, hij, hil, hm⟩
        cases i with
        | zero => exact Or.inl hm
        | succ i =>
          exact Or.inr ⟨i, Nat.lt_of_succ_lt_succ hij, Nat.lt_of_succ_lt_succ hil,
            by simpa using hm⟩

/-- Claim C3: the intersection resolution of `_calc_values_for_dirichlet`
keeps, in each condition, exactly the nodes not claimed by any earlier
condition (transitively, against the union of all previously resolved
conditions — which has the same members as the union of the earlier original
node sets), removing the corresponding value entries together with the nodes;
hence a node shared between two conditions is retained only by the earliest
condition containing it. -/
theorem c3_dirichlet_overlap (pairs : List (List ℕ × List ℚ))
    (hnd : ∀ pr ∈ pairs, pr.1.Nodup)
    (hlen : ∀ pr ∈ pairs, pr.2.length = pr.1.length) :
    (resolveDirichlet pairs).length = pairs.length
    ∧ (∀ k, k < pairs.length →
        (resolveDirichlet pairs).getD k ([], [])
          = ((pairs.getD k ([], [])).1.filter
              (fun m => decide (m ∉ ((pairs.take k).map (fun pr => pr.1)).flatten)),
             (((pairs.getD k ([], [])).1.zip (pairs.getD k ([], [])).2).filter
               (fun q => decide
                 (q.1 ∉ ((pairs.take k).map (fun pr => pr.1)).flatten))).map Prod.snd))
    ∧ (∀ m j k, j < k → k < pairs.length → m ∈ (pairs.getD j ([], [])).1 →
        m ∉ ((resolveDirichlet pairs).getD k ([], [])).1)
    ∧ (∀ m j, j < pairs.length → m ∈ (pairs.getD j ([], [])).1 →
        (∀ i, i < j → m ∉ (pairs.getD i ([], [])).1) →
        m ∈ ((resolveDirichlet pairs).getD j ([], [])).1) := by
  have hmain : (resolveDirichlet pairs).length = pairs.length
      ∧ (∀ k, k < pairs.length →
          (resolveDirichlet pairs).getD k ([], [])
            = ((pairs.getD k ([], [])).1.filter
                (fun m => decide (m ∉ ((pairs.take k).map (fun pr => pr.1)).flatten)),
               (((pairs.getD k ([], [])).1.zip (pairs.getD k ([], [])).2).filter
                 (fun q => decide
                   (q.1 ∉ ((pairs.take k).map (fun pr => pr.1)).flatten))).map Prod.snd)) := by
    cases pairs with
    | nil => exact ⟨rfl, by simp⟩
    | cons p0 rest =>
      obtain ⟨llen, lspec⟩ := resolveLoop_spec rest p0.1
        (fun q hq => hnd q (List.mem_cons_of_mem _ hq))
        (fun q hq => hlen q (List.mem_cons_of_mem _ hq))
      have hcons : resolveDirichlet (p0 :: rest) = p0 :: resolveLoop p0.1 rest := rfl
      constructor
      · rw [hcons, List.length_cons, llen, List.length_cons]
      · intro k hk
        cases k with
        | zero =>
          rw [hcons, List.getD_cons_zero, List.getD_cons_zero]
          have h1 : p0.1.filter
              (fun m => decide (m ∉ (((p0 :: rest).take 0).map (fun pr => pr.1)).flatten))
              = p0.1 :=
            List.filter_eq_self.mpr (fun a _ => by simp)
          have h2 : (p0.1.zip p0.2).filter
              (fun q => decide (q.1 ∉ (((p0 :: rest).take 0).map (fun pr => pr.1)).flatten))
              = p0.1.zip p0.2 :=
            List.filter_eq_self.mpr (fun a _ => by simp)
          rw [h1, h2, List.map_snd_zip p0.1 p0.2
            (le_of_eq (hlen p0 (List.mem_cons_self _ _)))]
        | succ k =>
          rw [hcons, List.getD_cons_succ, lspec k (by simpa using hk)]
          simp only [List.take_succ_cons, List.map_cons, List.flatten_cons,
            List.getD_cons_succ]
  obtain ⟨hl, hspec⟩ := hmain
  refine ⟨hl, hspec, fun m j k hjk hk hm => ?_, fun m j hj hm hmin => ?_⟩
  · rw [hspec k hk]
    intro hmem
    have := List.mem_filter.mp hmem
    rw [decide_eq_true_eq] at this
    exact this.2 ((mem_flatten_take pairs k m).mpr ⟨j, hjk, Nat.lt_trans hjk hk, hm⟩)
  · rw [hspec j hj]
    refine List.mem_filter.mpr ⟨hm, ?_⟩
    rw [decide_eq_true_eq]
    intro hmem
    obtain ⟨i, hij, _, hmi⟩ := (mem_flatten_take pairs j m).mp hmem
    exact hmin i hij hmi

/-- Witness for C3 at the claim's concrete example: condition A over nodes
{1,2,3} with value 5, then condition B over nodes {3,4} with value 9; node 3
resolves to A's value 5 and B retains only node 4. -/
theorem c3_dirichlet_overlap_witness :
    ((∀ pr ∈ [([1, 2, 3], [5, 5, 5]), ([3, 4], [9, 9])], pr.1.Nodup)
      ∧ (∀ pr ∈ ([([1, 2, 3], ([5, 5, 5] : List ℚ)), ([3, 4], [9, 9])]),
          pr.2.length = pr.1.length)
      ∧ resolveDirichlet [([1, 2, 3], [5, 5, 5]), ([3, 4], [9, 9])]
          = [([1, 2, 3], [5, 5, 5]), ([4], [9])])
    ∧ (∀ m j k, j < k → k < ([([1, 2, 3], ([5, 5, 5] : List ℚ)), ([3, 4], [9, 9])]).length →
        m ∈ (([([1, 2, 3], ([5, 5, 5] : List ℚ)), ([3, 4], [9, 9])]).getD j ([], [])).1 →
        m ∉ ((resolveDirichlet [([1, 2, 3], [5, 5, 5]), ([3, 4], [9, 9])]).getD k
          ([], [])).1) :=
  ⟨⟨by decide, by decide, by decide⟩,
    (c3_dirichlet_overlap [([1, 2, 3], [5, 5, 5]), ([3, 4], [9, 9])]
      (by decide) (by decide)).2.2.1⟩

/-! ## Lemmas: the symmetric Lagrange augmentation -/

theorem getD_replicate_zero (L j : ℕ) : (List.replicate L (0 : ℚ)).getD j 0 = 0 := by
  induction L generalizing j with
  | zero => rfl
  | succ L ih =>
    cases j with
    | zero => rfl
    | succ j => exact ih j

theorem getD_zip_pair (l1 l2 : List ℕ) (k : ℕ) (h1 : k < l1.length) (h2 : k < l2.length) :
    (l1.zip l2).getD k (0, 0) = (l1.getD k 0, l2.getD k 0) := by
  induction l1 generalizing l2 k with
  | nil => simp at h1
  | cons a as ih =>
    cases l2 with
    | nil => simp at h2
    | cons b bs =>
      cases k with
      | zero => rfl
      | succ k =>
        rw [List.zip_cons_cons, List.getD_cons_succ, List.getD_cons_succ, List.getD_cons_succ]
        exact ih bs k (by simpa using h1) (by simpa using h2)

theorem length_symAugment (A B : Mat) : (symAugment A B).length = A.length + B.length := by
  unfold symAugment
  rw [List.length_append, List.length_map, List.length_range, List.length_map]

theorem symAugment_row_bottom (A B : Mat) (k : ℕ) (hk : k < B.length) :
    (symAugment A B).getD (A.length + k) []
      = B.getD k [] ++ List.replicate B.length 0 := by
  unfold symAugment
  rw [List.getD_append_right _ _ _ _ (by rw [List.length_map, List.length_range]; omega)]
  rw [List.length_map, List.length_range, Nat.add_sub_cancel_left]
  exact getD_map' B _ k [] [] hk

theorem symAugment_row_top (A B : Mat) (j : ℕ) (hj : j < A.length) :
    (symAugment A B).getD j []
      = A.getD j [] ++ B.map (fun row => row.getD j 0) := by
  unfold symAugment
  rw [List.getD_append _ _ _ _ (by rw [List.length_map, List.length_range]; omega)]
  rw [getD_map' _ _ _ _ 0 (by rw [List.length_range]; omega), getD_range _ _ hj]

theorem symAugment_bottom_left (A B : Mat) (k c : ℕ) (hk : k < B.length) (hc : c < A.length)
    (hrow : ∀ row ∈ B, row.length = A.length) :
    getEntry (symAugment A B) (A.length + k) c = getEntry B k c := by
  unfold getEntry
  rw [symAugment_row_bottom A B k hk,
    List.getD_append _ _ _ _ (by rw [hrow (B.getD k []) (getD_mem _ _ _ hk)]; exact hc)]

theorem symAugment_bottom_right (A B : Mat) (k k2 : ℕ) (hk : k < B.length)
    (hrow : ∀ row ∈ B, row.length = A.length) :
    getEntry (symAugment A B) (A.length + k) (A.length + k2) = 0 := by
  unfold getEntry
  rw [symAugment_row_bottom A B k hk,
    List.getD_append_right _ _ _ _ (by rw [hrow (B.getD k []) (getD_mem _ _ _ hk)]; omega),
    hrow (B.getD k []) (getD_mem _ _ _ hk), Nat.add_sub_cancel_left, getD_replicate_zero]

theorem symAugment_top_right (A B : Mat) (j k : ℕ) (hj : j < A.length) (hk : k < B.length)
    (hsq : ∀ row ∈ A, row.length = A.length) :
    getEntry (symAugment A B) j (A.length + k) = getEntry B k j := by
  unfold getEntry
  rw [symAugment_row_top A B j hj,
    List.getD_append_right _ _ _ _ (by rw [hsq (A.getD j []) (getD_mem _ _ _ hj)]; omega),
    hsq (A.getD j []) (getD_mem _ _ _ hj), Nat.add_sub_cancel_left, getD_map' B _ k 0 [] hk]

theorem symAugment_top_left (A B : Mat) (j c : ℕ) (hj : j < A.length) (hc : c < A.length)
    (hsq : ∀ row ∈ A, row.length = A.length) :
    getEntry (symAugment A B) j c = getEntry A j c := by
  unfold getEntry
  rw [symAugment_row_top A B j hj,
    List.getD_append _ _ _ _ (by rw [hsq (A.getD j []) (getD_mem _ _ _ hj)]; exact hc)]

/-! ## Lemmas: COO triplets of the binary constraint block -/

theorem cooEntry_append (a b : List (ℕ × ℕ × ℚ)) (i j : ℕ) :
    cooEntry (a ++ b) i j = cooEntry a i j + cooEntry b i j := by
  unfold cooEntry
  rw [List.filter_append, List.map_append, List.sum_append]

theorem cooEntry_zero (ts : List (ℕ × ℕ × ℚ)) (i j : ℕ) (h : ∀ t ∈ ts, t.1 ≠ i) :
    cooEntry ts i j = 0 := by
  unfold cooEntry
  have hnil : ts.filter (fun t => decide (t.1 = i ∧ t.2.1 = j)) = [] := by
    rw [List.filter_eq_nil_iff]
    intro t ht
    simp [h t ht]
  rw [hnil]
  rfl

theorem cooEntry_rangeMap_ge (n prev k : ℕ) (cols : ℕ → ℕ) (v : ℕ → ℚ) (c : ℕ)
    (hk : n ≤ k) :
    cooEntry ((List.range n).map (fun i => (i + prev, cols i, v i))) (k + prev) c = 0 := by
  apply cooEntry_zero
  intro t ht
  obtain ⟨i, hi, rfl⟩ := List.mem_map.mp ht
  rw [List.mem_range] at hi
  show i + prev ≠ k + prev
  omega

theorem cooEntry_rangeMap_lt (n prev k : ℕ) (cols : ℕ → ℕ) (v : ℕ → ℚ) (c : ℕ)
    (hk : k < n) :
    cooEntry ((List.range n).map (fun i => (i + prev, cols i, v i))) (k + prev) c
      = if c = cols k then v k else 0 := by
  induction n with
  | zero => omega
  | succ n ih =>
    rw [List.range_succ, List.map_append, cooEntry_append]
    by_cases hkn : k < n
    · rw [ih hkn]
      have hz : cooEntry ([n].map (fun i => (i + prev, cols i, v i))) (k + prev) c = 0 := by
        apply cooEntry_zero
        intro t ht
        rw [List.map_cons, List.map_nil, List.mem_singleton] at ht
        rw [ht]
        show n + prev ≠ k + prev
        omega
      rw [hz, add_zero]
    · have hkeq : k = n := by omega
      subst hkeq
      have h0 : cooEntry ((List.range k).map (fun i => (i + prev, cols i, v i)))
          (k + prev) c = 0 := by
        apply cooEntry_zero
        intro t ht
        obtain ⟨i, hi, rfl⟩ := List.mem_map.mp ht
        rw [List.mem_range] at hi
        show i + prev ≠ k + prev
        omega
      rw [h0, zero_add]
      by_cases hc : c = cols k
      · simp [cooEntry, hc]
      · have hc' : ¬ cols k = c := fun h => hc h.symm
        simp [cooEntry, hc, hc']

theorem calc_binary_cons (getBc : ℕ → BCBinary) (key : ℕ) (rest : List ℕ) (prev : ℕ) :
    calc_values_for_binary getBc (key :: rest) prev
      = ((List.range (getBc key).primary_nodes.length).map
          (fun i => (i + prev, (getBc key).primary_nodes.getD i 0, -(getBc key).value)))
        ++ (((List.range (getBc key).replica_nodes.length).map
          (fun i => (i + prev, (getBc key).replica_nodes.getD i 0, (1 : ℚ))))
        ++ calc_values_for_binary getBc rest (prev + (getBc key).primary_nodes.length)) := by
  simp only [calc_values_for_binary, List.append_assoc]

theorem binaryPairs_cons (getBc : ℕ → BCBinary) (key : ℕ) (rest : List ℕ) :
    binaryPairs getBc (key :: rest)
      = ((getBc key).primary_nodes.zip (getBc key).replica_nodes).map
          (fun pr => (pr.1, pr.2, (getBc key).value)) ++ binaryPairs getBc rest := rfl

theorem binaryPairs_head_length (getBc : ℕ → BCBinary) (key : ℕ)
    (hp : (getBc key).primary_nodes.length = (getBc key).replica_nodes.length) :
    (((getBc key).primary_nodes.zip (getBc key).replica_nodes).map
        (fun pr => (pr.1, pr.2, (getBc key).value))).length
      = (getBc key).primary_nodes.length := by
  rw [List.length_map, List.length_zip, ← hp, Nat.min_self]

theorem calc_binary_lines_lt (getBc : ℕ → BCBinary) (keys : List ℕ)
    (hpair : ∀ key ∈ keys,
      (getBc key).primary_nodes.length = (getBc key).replica_nodes.length) :
    ∀ prev, ∀ t ∈ calc_values_for_binary getBc keys prev,
      t.1 < prev + (binaryPairs getBc keys).length := by
  induction keys with
  | nil => simp [calc_values_for_binary]
  | cons key rest ih =>
    intro prev t ht
    have hhp := binaryPairs_head_length getBc key (hpair key (List.mem_cons_self _ _))
    have hlen : (binaryPairs getBc (key :: rest)).length
        = (getBc key).primary_nodes.length + (binaryPairs getBc rest).length := by
      rw [binaryPairs_cons, List.length_append, hhp]
    rw [calc_binary_cons, List.mem_append, List.mem_append] at ht
    rcases ht with ht | ht | ht
    · obtain ⟨i, hi, rfl⟩ := List.mem_map.mp ht
      rw [List.mem_range] at hi
      show i + prev < prev + _
      omega
    · obtain ⟨i, hi, rfl⟩ := List.mem_map.mp ht
      rw [List.mem_range, ← hpair key (List.mem_cons_self _ _)] at hi
      show i + prev < prev + _
      omega
    · have := ih (fun q hq => hpair q (List.mem_cons_of_mem _ hq))
        (prev + (getBc key).primary_nodes.length) t ht
      omega

theorem calc_binary_lines_max (getBc : ℕ → BCBinary) (keys : List ℕ)
    (hpair : ∀ key ∈ keys,
      (getBc key).primary_nodes.length = (getBc key).replica_nodes.length)
    (hne : binaryPairs getBc keys ≠ []) :
    ∀ prev, ∃ t ∈ calc_values_for_binary getBc keys prev,
      t.1 = prev + (binaryPairs getBc keys).length - 1 := by
  induction keys with
  | nil => exact absurd rfl hne
  | cons key rest ih =>
    intro prev
    have hhp := binaryPairs_head_length getBc key (hpair key (List.mem_cons_self _ _))
    have hlen : (binaryPairs getBc (key :: rest)).length
        = (getBc key).primary_nodes.length + (binaryPairs getBc rest).length := by
      rw [binaryPairs_cons, List.length_append, hhp]
    by_cases hr : binaryPairs getBc rest = []
    · have hrl : (binaryPairs getBc rest).length = 0 := by rw [hr]; rfl
      have hne' : (((getBc key).primary_nodes.zip (getBc key).replica_nodes).map
          (fun pr => (pr.1, pr.2, (getBc key).value))) ≠ [] := by
        intro h0
        apply hne
        rw [binaryPairs_cons, h0, hr]
        rfl
      have hP : 1 ≤ (getBc key).primary_nodes.length := by
        have hpos := List.length_pos.mpr hne'
        rw [hhp] at hpos
        exact hpos
      refine ⟨((getBc key).primary_nodes.length - 1 + prev,
          (getBc key).primary_nodes.getD ((getBc key).primary_nodes.length - 1) 0,
          -(getBc key).value), ?_, ?_⟩
      · rw [calc_binary_cons, List.mem_append]
        refine Or.inl (List.mem_map.mpr ⟨(getBc key).primary_nodes.length - 1, ?_, rfl⟩)
        rw [List.mem_range]
        omega
      · show (getBc key).primary_nodes.length - 1 + prev
          = prev + (binaryPairs getBc (key :: rest)).length - 1
        rw [hlen, hrl]
        omega
    · obtain ⟨t, ht, hteq⟩ := ih (fun q hq => hpair q (List.mem_cons_of_mem _ hq)) hr
        (prev + (getBc key).primary_nodes.length)
      refine ⟨t, ?_, ?_⟩
      · rw [calc_binary_cons, List.mem_append, List.mem_append]
        exact Or.inr (Or.inr ht)
      · have hr1 : 1 ≤ (binaryPairs getBc rest).length :=
          List.length_pos.mpr hr
        rw [hteq, hlen]
        omega

theorem calc_binary_lines_lb (getBc : ℕ → BCBinary) (keys : List ℕ) :
    ∀ prev, ∀ t ∈ calc_values_for_binary getBc keys prev, prev ≤ t.1 := by
  induction keys with
  | nil => simp [calc_values_for_binary]
  | cons key rest ih =>
    intro prev t ht
    rw [calc_binary_cons, List.mem_append, List.mem_append] at ht
    rcases ht with ht | ht | ht
    · obtain ⟨i, hi, rfl⟩ := List.mem_map.mp ht
      show prev ≤ i + prev
      omega
    · obtain ⟨i, hi, rfl⟩ := List.mem_map.mp ht
      show prev ≤ i + prev
      omega
    · have := ih (prev + (getBc key).primary_nodes.length) t ht
      omega

theorem foldr_max_le (l : List ℕ) (b : ℕ) (h : ∀ x ∈ l, x ≤ b) : l.foldr max 0 ≤ b := by
  induction l with
  | nil => exact Nat.zero_le b
  | cons a as ih =>
    rw [List.foldr_cons]
    exact max_le (h a (List.mem_cons_self _ _)) (ih fun x hx => h x (List.mem_cons_of_mem _ hx))

theorem le_foldr_max (l : List ℕ) (x : ℕ) (h : x ∈ l) : x ≤ l.foldr max 0 := by
  induction l with
  | nil => simp at h
  | cons a as ih =>
    rw [List.foldr_cons]
    rcases List.mem_cons.mp h with h | h
    · exact h ▸ le_max_left _ _
    · exact le_trans (ih h) (le_max_right _ _)

theorem cooNumRows_calc_binary (getBc : ℕ → BCBinary) (keys : List ℕ)
    (hpair : ∀ key ∈ keys,
      (getBc key).primary_nodes.length = (getBc key).replica_nodes.length)
    (hne : binaryPairs getBc keys ≠ []) :
    cooNumRows (calc_values_for_binary getBc keys 0) = (binaryPairs getBc keys).length := by
  have hpos : 1 ≤ (binaryPairs getBc keys).length := List.length_pos.mpr hne
  have hub : ((calc_values_for_binary getBc keys 0).map (fun t => t.1)).foldr max 0
      ≤ (binaryPairs getBc keys).length - 1 := by
    apply foldr_max_le
    intro x hx
    obtain ⟨t, ht, rfl⟩ := List.mem_map.mp hx
    have := calc_binary_lines_lt getBc keys hpair 0 t ht
    omega
  have hlb : (binaryPairs getBc keys).length - 1
      ≤ ((calc_values_for_binary getBc keys 0).map (fun t => t.1)).foldr max 0 := by
    obtain ⟨t, ht, hteq⟩ := calc_binary_lines_max getBc keys hpair hne 0
    have hmem : t.1 ∈ (calc_values_for_binary getBc keys 0).map (fun t => t.1) :=
      List.mem_map.mpr ⟨t, ht, rfl⟩
    have := le_foldr_max _ _ hmem
    omega
  unfold cooNumRows
  omega

theorem cooEntry_calc_binary (getBc : ℕ → BCBinary) (keys : List ℕ)
    (hpair : ∀ key ∈ keys,
      (getBc key).primary_nodes.length = (getBc key).replica_nodes.length) :
    ∀ prev k c,
    (k < (binaryPairs getBc keys).length →
      cooEntry (calc_values_for_binary getBc keys prev) (k + prev) c
        = (if c = ((binaryPairs getBc keys).getD k (0, 0, 0)).1
            then -((binaryPairs getBc keys).getD k (0, 0, 0)).2.2 else 0)
          + (if c = ((binaryPairs getBc keys).getD k (0, 0, 0)).2.1 then 1 else 0))
    ∧ ((binaryPairs getBc keys).length ≤ k →
      cooEntry (calc_values_for_binary getBc keys prev) (k + prev) c = 0) := by
  induction keys with
  | nil =>
    intro prev k c
    exact ⟨fun hk => absurd hk (by simp [binaryPairs]),
      fun _ => by simp [calc_values_for_binary, cooEntry]⟩
  | cons key rest ih =>
    intro prev k c
    have hhp := binaryPairs_head_length getBc key (hpair key (List.mem_cons_self _ _))
    have hR : (getBc key).replica_nodes.length = (getBc key).primary_nodes.length :=
      (hpair key (List.mem_cons_self _ _)).symm
    have hlen : (binaryPairs getBc (key :: rest)).length
        = (getBc key).primary_nodes.length + (binaryPairs getBc rest).length := by
      rw [binaryPairs_cons, List.length_append, hhp]
    have hrestz : ∀ kk cc, (∀ t ∈ calc_values_for_binary getBc rest
        (prev + (getBc key).primary_nodes.length), t.1 ≠ kk) →
        cooEntry (calc_values_for_binary getBc rest
          (prev + (getBc key).primary_nodes.length)) kk cc = 0 :=
      fun kk cc hh => cooEntry_zero _ _ _ hh
    constructor
    · intro hk
      rw [calc_binary_cons, cooEntry_append, cooEntry_append]
      by_cases hklt : k < (getBc key).primary_nodes.length
      · rw [cooEntry_rangeMap_lt _ _ _ _ _ _ hklt,
          cooEntry_rangeMap_lt _ _ _ _ _ _ (by omega : k < (getBc key).replica_nodes.length)]
        have hz : cooEntry (calc_values_for_binary getBc rest
            (prev + (getBc key).primary_nodes.length)) (k + prev) c = 0 := by
          apply hrestz
          intro t ht
          have := calc_binary_lines_lb getBc rest
            (prev + (getBc key).primary_nodes.length) t ht
          omega
        rw [hz, add_zero]
        rw [binaryPairs_cons, List.getD_append _ _ _ _ (by rw [hhp]; exact hklt),
          getD_map' _ _ _ _ (0, 0) (by rw [List.length_zip]; omega),
          getD_zip_pair _ _ _ hklt (by omega)]
      · have hkge : (getBc key).primary_nodes.length ≤ k := Nat.le_of_not_lt hklt
        rw [cooEntry_rangeMap_ge _ _ _ _ _ _ hkge,
          cooEntry_rangeMap_ge _ _ _ _ _ _ (by omega : (getBc key).replica_nodes.length ≤ k),
          zero_add, zero_add]
        have harith : k + prev
            = (k - (getBc key).primary_nodes.length)
              + (prev + (getBc key).primary_nodes.length) := by omega
        rw [harith]
        have hrest := (ih (fun q hq => hpair q (List.mem_cons_of_mem _ hq))
          (prev + (getBc key).primary_nodes.length)
          (k - (getBc key).primary_nodes.length) c).1 (by omega)
        rw [hrest, binaryPairs_cons, List.getD_append_right _ _ _ _ (by rw [hhp]; omega), hhp]
    · intro hk
      rw [calc_binary_cons, cooEntry_append, cooEntry_append]
      rw [cooEntry_rangeMap_ge _ _ _ _ _ _ (by omega : (getBc key).primary_nodes.length ≤ k),
        cooEntry_rangeMap_ge _ _ _ _ _ _ (by omega : (getBc key).replica_nodes.length ≤ k),
        zero_add, zero_add]
      have harith : k + prev
          = (k - (getBc key).primary_nodes.length)
            + (prev + (getBc key).primary_nodes.length) := by omega
      rw [harith]
      exact (ih (fun q hq => hpair q (List.mem_cons_of_mem _ hq))
        (prev + (getBc key).primary_nodes.length)
        (k - (getBc key).primary_nodes.length) c).2 (by omega)

theorem getEntry_cooBlock (ts : List (ℕ × ℕ × ℚ)) (L n k c : ℕ) (hk : k < L) (hc : c < n) :
    getEntry (cooBlock ts L n) k c = cooEntry ts k c := by
  unfold getEntry cooBlock
  rw [getD_map' _ _ _ _ 0 (by rw [List.length_range]; exact hk), getD_range _ _ hk,
    getD_map' _ _ _ _ 0 (by rw [List.length_range]; exact hc), getD_range _ _ hc]

theorem cooBlock_rows (ts : List (ℕ × ℕ × ℚ)) (L n : ℕ) :
    ∀ row ∈ cooBlock ts L n, row.length = n := by
  intro row hrow
  obtain ⟨i, _, rfl⟩ := List.mem_map.mp hrow
  rw [List.length_map, List.length_range]

theorem length_cooBlock (ts : List (ℕ × ℕ × ℚ)) (L n : ℕ) :
    (cooBlock ts L n).length = L := by
  rw [cooBlock, List.length_map, List.length_range]

theorem binaryPairs_length (getBc : ℕ → BCBinary) (keys : List ℕ)
    (hpair : ∀ key ∈ keys,
      (getBc key).primary_nodes.length = (getBc key).replica_nodes.length) :
    (binaryPairs getBc keys).length
      = (keys.map (fun key => (getBc key).primary_nodes.length)).sum := by
  induction keys with
  | nil => rfl
  | cons key rest ih =>
    rw [binaryPairs_cons, List.length_append,
      binaryPairs_head_length getBc key (hpair key (List.mem_cons_self _ _)),
      ih (fun q hq => hpair q (List.mem_cons_of_mem _ hq)), List.map_cons, List.sum_cons]

/-- Claim C4: `shrink_binary` appends one Lagrange-multiplier row per paired
(primary, replica) node, each row carrying `-value` at the primary column and
`+1` at the replica column (so it encodes `x_replica - value * x_primary = 0`);
the number of added rows is the sum of the primary node counts over all binary
conditions, and the augmentation is symmetric: the transpose of the constraint
block is placed as new columns, the bottom-right block and the new rhs entries
are zero, while the original matrix block and rhs prefix are unchanged. -/
theorem c4_shrink_binary (A : Mat) (r : Vec) (getBc : ℕ → BCBinary) (keys : List ℕ)
    (hpair : ∀ key ∈ keys,
      (getBc key).primary_nodes.length = (getBc key).replica_nodes.length)
    (hne : binaryPairs getBc keys ≠ [])
    (hsq : ∀ row ∈ A, row.length = A.length) :
    (shrink_binary A r getBc keys).2.2 = (binaryPairs getBc keys).length
    ∧ (shrink_binary A r getBc keys).2.2
        = (keys.map (fun key => (getBc key).primary_nodes.length)).sum
    ∧ (shrink_binary A r getBc keys).1.length = A.length + (shrink_binary A r getBc keys).2.2
    ∧ (∀ k c, k < (shrink_binary A r getBc keys).2.2 → c < A.length →
        getEntry (shrink_binary A r getBc keys).1 (A.length + k) c
          = (if c = ((binaryPairs getBc keys).getD k (0, 0, 0)).1
              then -((binaryPairs getBc keys).getD k (0, 0, 0)).2.2 else 0)
            + (if c = ((binaryPairs getBc keys).getD k (0, 0, 0)).2.1 then 1 else 0))
    ∧ (∀ j k, j < A.length → k < (shrink_binary A r getBc keys).2.2 →
        getEntry (shrink_binary A r getBc keys).1 j (A.length + k)
          = getEntry (shrink_binary A r getBc keys).1 (A.length + k) j)
    ∧ (∀ k k2, k < (shrink_binary A r getBc keys).2.2 →
        k2 < (shrink_binary A r getBc keys).2.2 →
        getEntry (shrink_binary A r getBc keys).1 (A.length + k) (A.length + k2) = 0)
    ∧ (∀ j c, j < A.length → c < A.length →
        getEntry (shrink_binary A r getBc keys).1 j c = getEntry A j c)
    ∧ (shrink_binary A r getBc keys).2.1 = r ++ List.replicate (shrink_binary A r getBc keys).2.2 0 := by
  have hL : (shrink_binary A r getBc keys).2.2 = (binaryPairs getBc keys).length :=
    cooNumRows_calc_binary getBc keys hpair hne
  have hBlen : (cooBlock (calc_values_for_binary getBc keys 0)
      (cooNumRows (calc_values_for_binary getBc keys 0)) A.length).length
      = cooNumRows (calc_values_for_binary getBc keys 0) := length_cooBlock _ _ _
  have hBrows := cooBlock_rows (calc_values_for_binary getBc keys 0)
    (cooNumRows (calc_values_for_binary getBc keys 0)) A.length
  refine ⟨hL, by rw [hL]; exact binaryPairs_length getBc keys hpair, ?_, ?_, ?_, ?_, ?_, rfl⟩
  · show (symAugment A _).length = _
    rw [length_symAugment, hBlen]
    rfl
  · intro k c hk hc
    have hk' : k < cooNumRows (calc_values_for_binary getBc keys 0) := hk
    have hstep : getEntry (shrink_binary A r getBc keys).1 (A.length + k) c
        = cooEntry (calc_values_for_binary getBc keys 0) k c := by
      show getEntry (symAugment A _) (A.length + k) c = _
      rw [symAugment_bottom_left A _ k c (by rw [hBlen]; exact hk') hc hBrows]
      exact getEntry_cooBlock _ _ _ _ _ hk' hc
    rw [hstep]
    have := (cooEntry_calc_binary getBc keys hpair 0 k c).1 (by rw [← hL]; exact hk)
    rw [Nat.add_zero] at this
    exact this
  · intro j k hj hk
    have hk' : k < cooNumRows (calc_values_for_binary getBc keys 0) := hk
    have h1 : getEntry (shrink_binary A r getBc keys).1 j (A.length + k)
        = getEntry (cooBlock (calc_values_for_binary getBc keys 0)
            (cooNumRows (calc_values_for_binary getBc keys 0)) A.length) k j := by
      show getEntry (symAugment A _) j (A.length + k) = _
      exact symAugment_top_right A _ j k hj (by rw [hBlen]; exact hk') hsq
    have h2 : getEntry (shrink_binary A r getBc keys).1 (A.length + k) j
        = getEntry (cooBlock (calc_values_for_binary getBc keys 0)
            (cooNumRows (calc_values_for_binary getBc keys 0)) A.length) k j := by
      show getEntry (symAugment A _) (A.length + k) j = _
      exact symAugment_bottom_left A _ k j (by rw [hBlen]; exact hk') hj hBrows
    rw [h1, h2]
  · intro k k2 hk hk2
    show getEntry (symAugment A _) (A.length + k) (A.length + k2) = 0
    exact symAugment_bottom_right A _ k k2 (by rw [hBlen]; exact hk) hBrows
  · intro j c hj hc
    show getEntry (symAugment A _) j c = getEntry A j c
    exact symAugment_top_left A _ j c hj hc hsq

/-- Witness for C4 at the claim's concrete example: one binary condition with
primary nodes [0, 1], replica nodes [2, 3] and value 2, on a 4×4 identity
matrix; the two added rows enforce `x2 - 2*x0 = 0` and `x3 - 2*x1 = 0`. -/
theorem c4_shrink_binary_witness :
    ((∀ key ∈ ([7] : List ℕ),
        ((fun _ : ℕ => BCBinary.mk [0, 1] [2, 3] 2) key).primary_nodes.length
          = ((fun _ : ℕ => BCBinary.mk [0, 1] [2, 3] 2) key).replica_nodes.length)
      ∧ binaryPairs (fun _ => BCBinary.mk [0, 1] [2, 3] 2) [7] ≠ []
      ∧ binaryPairs (fun _ => BCBinary.mk [0, 1] [2, 3] 2) [7] = [(0, 2, 2), (1, 3, 2)]
      ∧ (∀ row ∈ ([[1, 0, 0, 0], [0, 1, 0, 0], [0, 0, 1, 0], [0, 0, 0, 1]] : Mat),
          row.length
            = ([[1, 0, 0, 0], [0, 1, 0, 0], [0, 0, 1, 0], [0, 0, 0, 1]] : Mat).length))
    ∧ ((shrink_binary [[1, 0, 0, 0], [0, 1, 0, 0], [0, 0, 1, 0], [0, 0, 0, 1]] [5, 6, 7, 8]
          (fun _ => BCBinary.mk [0, 1] [2, 3] 2) [7]).2.2
        = (binaryPairs (fun _ => BCBinary.mk [0, 1] [2, 3] 2) [7]).length
      ∧ (∀ k c,
          k < (shrink_binary [[1, 0, 0, 0], [0, 1, 0, 0], [0, 0, 1, 0], [0, 0, 0, 1]]
            [5, 6, 7, 8] (fun _ => BCBinary.mk [0, 1] [2, 3] 2) [7]).2.2 →
          c < ([[1, 0, 0, 0], [0, 1, 0, 0], [0, 0, 1, 0], [0, 0, 0, 1]] : Mat).length →
          getEntry (shrink_binary [[1, 0, 0, 0], [0, 1, 0, 0], [0, 0, 1, 0], [0, 0, 0, 1]]
              [5, 6, 7, 8] (fun _ => BCBinary.mk [0, 1] [2, 3] 2) [7]).1
              (([[1, 0, 0, 0], [0, 1, 0, 0], [0, 0, 1, 0], [0, 0, 0, 1]] : Mat).length + k) c
            = (if c = ((binaryPairs (fun _ => BCBinary.mk [0, 1] [2, 3] 2) [7]).getD k
                  (0, 0, 0)).1
                then -((binaryPairs (fun _ => BCBinary.mk [0, 1] [2, 3] 2) [7]).getD k
                  (0, 0, 0)).2.2 else 0)
              + (if c = ((binaryPairs (fun _ => BCBinary.mk [0, 1] [2, 3] 2) [7]).getD k
                  (0, 0, 0)).2.1 then 1 else 0))) :=
  ⟨⟨by decide, by decide, by decide, by decide⟩,
    ⟨(c4_shrink_binary [[1, 0, 0, 0], [0, 1, 0, 0], [0, 0, 1, 0], [0, 0, 0, 1]] [5, 6, 7, 8]
        (fun _ => BCBinary.mk [0, 1] [2, 3] 2) [7] (by decide) (by decide) (by decide)).1,
      (c4_shrink_binary [[1, 0, 0, 0], [0, 1, 0, 0], [0, 0, 1, 0], [0, 0, 0, 1]] [5, 6, 7, 8]
        (fun _ => BCBinary.mk [0, 1] [2, 3] 2) [7] (by decide) (by decide)
        (by decide)).2.2.2.1⟩⟩

/-! ## Lemmas: the floating constraint block -/

theorem length_floating_flatten (nodeSets : List (List ℕ)) (n : ℕ) :
    ((nodeSets.map (fun nodes => floating_block n nodes)).flatten).length
      = (nodeSets.map (fun ns => ns.length - 1)).sum := by
  induction nodeSets with
  | nil => rfl
  | cons ns rest ih =>
    rw [List.map_cons, List.flatten_cons, List.length_append, ih, List.map_cons, List.sum_cons]
    unfold floating_block
    rw [List.length_map, List.length_dropLast]

theorem length_slavePairs (nodeSets : List (List ℕ)) :
    (slavePairs nodeSets).length = (nodeSets.map (fun ns => ns.length - 1)).sum := by
  induction nodeSets with
  | nil => rfl
  | cons ns rest ih =>
    unfold slavePairs at ih ⊢
    rw [List.map_cons, List.flatten_cons, List.length_append, ih, List.map_cons, List.sum_cons,
      List.length_map, List.length_dropLast]

theorem floating_flatten_getD (nodeSets : List (List ℕ)) (n k : ℕ)
    (hk : k < ((nodeSets.map (fun nodes => floating_block n nodes)).flatten).length) :
    ((nodeSets.map (fun nodes => floating_block n nodes)).flatten).getD k []
      = (List.range n).map (fun c =>
          (if c = ((slavePairs nodeSets).getD k (0, 0)).1 then (1 : ℚ) else 0)
            - (if c = ((slavePairs nodeSets).getD k (0, 0)).2 then (1 : ℚ) else 0)) := by
  induction nodeSets generalizing k with
  | nil => simp at hk
  | cons ns rest ih =>
    have hblen : (floating_block n ns).length = ns.dropLast.length := by
      unfold floating_block
      rw [List.length_map]
    have hplen : (ns.dropLast.map (fun s => (s, ns.getLastD 0))).length
        = ns.dropLast.length := List.length_map ..
    rw [List.map_cons, List.flatten_cons]
    have hsp : slavePairs (ns :: rest)
        = ns.dropLast.map (fun s => (s, ns.getLastD 0)) ++ slavePairs rest := rfl
    by_cases hkl : k < ns.dropLast.length
    · rw [List.getD_append _ _ _ _ (by rw [hblen]; exact hkl), hsp,
        List.getD_append _ _ _ _ (by rw [hplen]; exact hkl)]
      unfold floating_block
      rw [getD_map' _ _ _ _ 0 hkl, getD_map' _ _ _ _ 0 hkl]
    · have hge : ns.dropLast.length ≤ k := Nat.le_of_not_lt hkl
      rw [List.map_cons, List.flatten_cons, List.length_append, hblen] at hk
      rw [List.getD_append_right _ _ _ _ (by rw [hblen]; exact hge), hblen, hsp,
        List.getD_append_right _ _ _ _ (by rw [hplen]; exact hge), hplen]
      exact ih (k - ns.dropLast.length) (by omega)

theorem floating_flatten_rows (nodeSets : List (List ℕ)) (n : ℕ) :
    ∀ row ∈ (nodeSets.map (fun nodes => floating_block n nodes)).flatten,
      row.length = n := by
  intro row hrow
  rw [List.mem_flatten] at hrow
  obtain ⟨block, hblock, hrow⟩ := hrow
  obtain ⟨ns, _, rfl⟩ := List.mem_map.mp hblock
  unfold floating_block at hrow
  obtain ⟨s, _, rfl⟩ := List.mem_map.mp hrow
  rw [List.length_map, List.length_range]

/-- Claim C5: `shrink_floating` collects each floating condition's full node
set (the union over all regions sharing the condition), designates the last
node of the set as master and every other node as slave, and adds one row per
slave carrying `+1` at the slave column and `-1` at the master column
(enforcing `x_slave - x_master = 0`); the number of added rows is the sum of
(node-set size − 1) over the conditions, with the same symmetric augmentation
as in the binary case. -/
theorem c5_shrink_floating (A : Mat) (r : Vec) (keys : List ℕ) (msh : Mesh)
    (regionDim : ℤ → ℕ) (regionsOfBc : ℕ → List ℤ)
    (hsq : ∀ row ∈ A, row.length = A.length) :
    (∀ key m, m ∈ npUnique (((regionsOfBc key).map
          (fun regi => floatingNodesOfRegion msh (regionDim regi) regi)).flatten)
        ↔ ∃ regi ∈ regionsOfBc key, m ∈ floatingNodesOfRegion msh (regionDim regi) regi)
    ∧ (shrink_floating A r keys msh regionDim regionsOfBc).2.2
        = ((calc_values_for_floating keys msh regionDim regionsOfBc).map
            (fun ns => ns.length - 1)).sum
    ∧ (shrink_floating A r keys msh regionDim regionsOfBc).1.length
        = A.length + (shrink_floating A r keys msh regionDim regionsOfBc).2.2
    ∧ (∀ k c, k < (shrink_floating A r keys msh regionDim regionsOfBc).2.2 → c < A.length →
        getEntry (shrink_floating A r keys msh regionDim regionsOfBc).1 (A.length + k) c
          = (if c = ((slavePairs (calc_values_for_floating keys msh regionDim
                regionsOfBc)).getD k (0, 0)).1 then (1 : ℚ) else 0)
            - (if c = ((slavePairs (calc_values_for_floating keys msh regionDim
                regionsOfBc)).getD k (0, 0)).2 then (1 : ℚ) else 0))
    ∧ (∀ j k, j < A.length → k < (shrink_floating A r keys msh regionDim regionsOfBc).2.2 →
        getEntry (shrink_floating A r keys msh regionDim regionsOfBc).1 j (A.length + k)
          = getEntry (shrink_floating A r keys msh regionDim regionsOfBc).1 (A.length + k) j)
    ∧ (∀ k k2, k < (shrink_floating A r keys msh regionDim regionsOfBc).2.2 →
        k2 < (shrink_floating A r keys msh regionDim regionsOfBc).2.2 →
        getEntry (shrink_floating A r keys msh regionDim regionsOfBc).1
          (A.length + k) (A.length + k2) = 0)
    ∧ (shrink_floating A r keys msh regionDim regionsOfBc).2.1
        = r ++ List.replicate (shrink_floating A r keys msh regionDim regionsOfBc).2.2 0 := by
  have hBrows := floating_flatten_rows (calc_values_for_floating keys msh regionDim regionsOfBc)
    A.length
  refine ⟨?_, ?_, ?_, ?_, ?_, ?_, rfl⟩
  · intro key m
    rw [mem_npUnique, List.mem_flatten]
    constructor
    · rintro ⟨l, hl, hm⟩
      obtain ⟨regi, hregi, rfl⟩ := List.mem_map.mp hl
      exact ⟨regi, hregi, hm⟩
    · rintro ⟨regi, hregi, hm⟩
      exact ⟨_, List.mem_map.mpr ⟨regi, hregi, rfl⟩, hm⟩
  · exact length_floating_flatten _ _
  · show (symAugment A _).length = _
    rw [length_symAugment]
    rfl
  · intro k c hk hc
    show getEntry (symAugment A _) (A.length + k) c = _
    rw [symAugment_bottom_left A _ k c hk hc hBrows]
    unfold getEntry
    rw [floating_flatten_getD _ _ _ hk, getD_map' _ _ _ _ 0 (by
      rw [List.length_range]; exact hc), getD_range _ _ hc]
  · intro j k hj hk
    show getEntry (symAugment A _) j (A.length + k)
      = getEntry (symAugment A _) (A.length + k) j
    rw [symAugment_top_right A _ j k hj hk hsq, symAugment_bottom_left A _ k j hk hj hBrows]
  · intro k k2 hk hk2
    show getEntry (symAugment A _) (A.length + k) (A.length + k2) = 0
    exact symAugment_bottom_right A _ k k2 hk hBrows

/-- Witness for C5 at the claim's concrete example: a floating condition over
node set {5, 6, 7} (master 7) on an 8×8 zero matrix; the added rows enforce
`x5 - x7 = 0` and `x6 - x7 = 0`. -/
theorem c5_shrink_floating_witness :
    ((∀ row ∈ List.replicate 8 (List.replicate 8 (0 : ℚ)),
        row.length = (List.replicate 8 (List.replicate 8 (0 : ℚ))).length)
      ∧ calc_values_for_floating [4] ⟨[], [3, 3], [[5, 6], [6, 7]], [], []⟩ (fun _ => 1)
          (fun _ => [3]) = [[5, 6, 7]]
      ∧ slavePairs [[5, 6, 7]] = [(5, 7), (6, 7)])
    ∧ ((shrink_floating (List.replicate 8 (List.replicate 8 (0 : ℚ)))
          (List.replicate 8 0) [4] ⟨[], [3, 3], [[5, 6], [6, 7]], [], []⟩ (fun _ => 1)
          (fun _ => [3])).2.2
        = ((calc_values_for_floating [4] ⟨[], [3, 3], [[5, 6], [6, 7]], [], []⟩ (fun _ => 1)
            (fun _ => [3])).map (fun ns => ns.length - 1)).sum
      ∧ (∀ k c,
          k < (shrink_floating (List.replicate 8 (List.replicate 8 (0 : ℚ)))
            (List.replicate 8 0) [4] ⟨[], [3, 3], [[5, 6], [6, 7]], [], []⟩ (fun _ => 1)
            (fun _ => [3])).2.2 →
          c < (List.replicate 8 (List.replicate 8 (0 : ℚ))).length →
          getEntry (shrink_floating (List.replicate 8 (List.replicate 8 (0 : ℚ)))
              (List.replicate 8 0) [4] ⟨[], [3, 3], [[5, 6], [6, 7]], [], []⟩ (fun _ => 1)
              (fun _ => [3])).1
              ((List.replicate 8 (List.replicate 8 (0 : ℚ))).length + k) c
            = (if c = ((slavePairs (calc_values_for_floating [4]
                  ⟨[], [3, 3], [[5, 6], [6, 7]], [], []⟩ (fun _ => 1)
                  (fun _ => [3]))).getD k (0, 0)).1 then (1 : ℚ) else 0)
              - (if c = ((slavePairs (calc_values_for_floating [4]
                  ⟨[], [3, 3], [[5, 6], [6, 7]], [], []⟩ (fun _ => 1)
                  (fun _ => [3]))).getD k (0, 0)).2 then (1 : ℚ) else 0))) :=
  ⟨⟨by decide, by decide, by decide⟩,
    ⟨(c5_shrink_floating (List.replicate 8 (List.replicate 8 (0 : ℚ))) (List.replicate 8 0)
        [4] ⟨[], [3, 3], [[5, 6], [6, 7]], [], []⟩ (fun _ => 1) (fun _ => [3])
        (by decide)).2.1,
      (c5_shrink_floating (List.replicate 8 (List.replicate 8 (0 : ℚ))) (List.replicate 8 0)
        [4] ⟨[], [3, 3], [[5, 6], [6, 7]], [], []⟩ (fun _ => 1) (fun _ => [3])
        (by decide)).2.2.2.1⟩⟩

/-! ## Lemmas: node resolution of regions (C6) -/

theorem mem_taggedNodes (tags : List ℤ) (rows : List (List ℕ)) (regi : ℤ) (nn : ℕ) :
    nn ∈ taggedNodes tags rows regi
      ↔ ∃ e, e < tags.length ∧ tags.getD e 0 = regi ∧ nn ∈ rows.getD e [] := by
  unfold taggedNodes whereEq
  rw [List.mem_flatten]
  constructor
  · rintro ⟨l, hl, hm⟩
    obtain ⟨e, he, rfl⟩ := List.mem_map.mp hl
    obtain ⟨her, het⟩ := List.mem_filter.mp he
    rw [List.mem_range] at her
    exact ⟨e, her, by simpa using het, hm⟩
  · rintro ⟨e, he, het, hm⟩
    exact ⟨rows.getD e [], List.mem_map.mpr ⟨e,
      List.mem_filter.mpr ⟨List.mem_range.mpr he, by simpa using het⟩, rfl⟩, hm⟩

/-- Counterexample for C6: a mesh with one dimension-2 region tag on an
element; the Dirichlet node resolution returns the element's nodes while the
floating node resolution (which queries the edge tables in its dimension-2
branch) returns nothing. -/
theorem c6_node_resolution_counterexample :
    dirichletNodesOfRegion ⟨[], [], [], [7], [[0, 1, 2]]⟩ 2 7 = [0, 1, 2]
    ∧ floatingNodesOfRegion ⟨[], [], [], [7], [[0, 1, 2]]⟩ 2 7 = []
    ∧ ¬ (dirichletNodesOfRegion ⟨[], [], [], [7], [[0, 1, 2]]⟩ 2 7
        = floatingNodesOfRegion ⟨[], [], [], [7], [[0, 1, 2]]⟩ 2 7) := by decide

/-- Claim C6, amended: the Dirichlet node resolution maps dimension 0 to the
mesh nodes tagged with the region, dimension 1 to the unique nodes of edges
tagged with the region, and dimension 2 to the unique nodes of elements tagged
with the region; the floating node resolution resolves dimension-1 regions
identically (unique nodes of tagged edges) but resolves dimension-2 regions
through the edge tables as well (the same query as dimension 1, not the
element tables) and ignores dimension-0 regions, so the two computations agree
for dimension-1 regions but not in general for dimension-0 or dimension-2
regions. -/
theorem c6_node_resolution_amended (msh : Mesh) (regi : ℤ) :
    (∀ nn : ℕ, nn ∈ dirichletNodesOfRegion msh 0 regi
        ↔ nn < msh.node2regi.length ∧ msh.node2regi.getD nn 0 = regi)
    ∧ (∀ nn, nn ∈ dirichletNodesOfRegion msh 1 regi
        ↔ ∃ e, e < msh.edge2regi.length ∧ msh.edge2regi.getD e 0 = regi
            ∧ nn ∈ msh.edge2node.getD e [])
    ∧ (∀ nn, nn ∈ dirichletNodesOfRegion msh 2 regi
        ↔ ∃ t, t < msh.elem2regi.length ∧ msh.elem2regi.getD t 0 = regi
            ∧ nn ∈ msh.elem2node.getD t [])
    ∧ floatingNodesOfRegion msh 1 regi = dirichletNodesOfRegion msh 1 regi
    ∧ floatingNodesOfRegion msh 2 regi
        = npUnique (taggedNodes msh.edge2regi msh.edge2node regi)
    ∧ floatingNodesOfRegion msh 0 regi = [] := by
  refine ⟨fun nn => ?_, fun nn => ?_, fun nn => ?_, rfl, rfl, rfl⟩
  · show nn ∈ whereEq msh.node2regi regi ↔ _
    unfold whereEq
    rw [List.mem_filter, List.mem_range]
    simp
  · show nn ∈ npUnique (taggedNodes msh.edge2regi msh.edge2node regi) ↔ _
    rw [mem_npUnique]
    exact mem_taggedNodes _ _ _ _
  · show nn ∈ npUnique (taggedNodes msh.elem2regi msh.elem2node regi) ↔ _
    rw [mem_npUnique]
    exact mem_taggedNodes _ _ _ _

/-! ## Lemmas: indexing space of the Dirichlet data inside `shrink` (C8) -/

theorem shrink_binary_matrix_length (A : Mat) (r : Vec) (getBc : ℕ → BCBinary)
    (keys : List ℕ) :
    (shrink_binary A r getBc keys).1.length = A.length + (shrink_binary A r getBc keys).2.2 := by
  show (symAugment A _).length = _
  rw [length_symAugment, length_cooBlock]
  rfl

theorem shrink_floating_matrix_length (A : Mat) (r : Vec) (keys : List ℕ) (msh : Mesh)
    (regionDim : ℤ → ℕ) (regionsOfBc : ℕ → List ℤ) :
    (shrink_floating A r keys msh regionDim regionsOfBc).1.length
      = A.length + (shrink_floating A r keys msh regionDim regionsOfBc).2.2 := by
  show (symAugment A _).length = _
  rw [length_symAugment]
  rfl

theorem shrink_dirichlet_ok_inv (A0 : Mat) (r0 : Vec) (getBc : ℕ → BCValue) (keys : List ℕ)
    (msh : Mesh) (regionDim : ℤ → ℕ) (regionsOfBc : ℕ → List ℤ) (res : DirichletResult)
    (heq : shrink_dirichlet A0 r0 getBc keys msh regionDim regionsOfBc = .ok res) :
    ∃ pairs, calc_values_for_dirichlet getBc msh regionDim regionsOfBc keys = .ok pairs
      ∧ res.indices_on_dirichlet = ((pairs.map (fun pr => pr.1)).flatten)
      ∧ res.values_on_dirichlet = ((pairs.map (fun pr => pr.2)).flatten)
      ∧ res.indices_not_on_dirichlet
          = setdiff A0.length ((pairs.map (fun pr => pr.1)).flatten) := by
  unfold shrink_dirichlet at heq
  cases hcalc : calc_values_for_dirichlet getBc msh regionDim regionsOfBc keys with
  | error e =>
    rw [hcalc] at heq
    exact Except.noConfusion heq
  | ok pairs =>
    rw [hcalc] at heq
    injection heq with h2
    exact ⟨pairs, rfl, by rw [← h2], by rw [← h2], by rw [← h2]⟩

/-- Counterexample for C8: with one binary condition (one Lagrange multiplier)
and one Dirichlet condition fixing node 0 of a 2-node system, the free-index
set stored in the support data is [1, 2], and index 2 does not refer to any
DOF of the unaugmented 2×2 system. -/
theorem c8_indexing_counterexample :
    shrink [[1, 0], [0, 1]] [0, 0]
      (ShrinkProblem.mk [1] (fun _ => ⟨[0], [1], 1⟩) [] [2] (fun _ => .const_scalar 3)
        ⟨[5, 0], [], [], [], []⟩ (fun _ => 0) (fun _ => [5]))
      = .ok ([[1, 1], [1, 0]], [0, 3], [0], 1,
          ⟨1, 0, some [0], some [1, 2], some [3]⟩)
    ∧ ¬ (∀ i ∈ [1, 2], i < ([[1, 0], [0, 1]] : Mat).length) :=
  ⟨by with_unfolding_all decide, by decide⟩

/-- Claim C8, amended: the fixed-index set and fixed-value array stored by
`shrink` come from the mesh-based Dirichlet computation alone (original mesh
numbering, independent of the binary/floating augmentation), but the
free-index set is the complement of the fixed set within the augmented row
range `[0, N + num_lagrange_mul)`, so it also contains the Lagrange-multiplier
indices `N .. N + num_lagrange_mul - 1` whenever the fixed indices are
original-mesh indices. -/
theorem c8_indexing_amended (A : Mat) (r : Vec) (p : ShrinkProblem)
    (M : Mat) (rr : Vec) (ind : List ℕ) (nl : ℕ) (sd : SupportData)
    (h : shrink A r p = .ok (M, rr, ind, nl, sd))
    (hdir : p.dirKeys ≠ []) :
    ∃ pairs, calc_values_for_dirichlet p.getDir p.mesh p.regionDim p.regionsOfBc p.dirKeys
        = .ok pairs
      ∧ sd.indices_on_dirichlet = some ((pairs.map (fun pr => pr.1)).flatten)
      ∧ sd.values_on_dirichlet = some ((pairs.map (fun pr => pr.2)).flatten)
      ∧ sd.indices_not_on_dirichlet
          = some (setdiff (A.length + nl) ((pairs.map (fun pr => pr.1)).flatten))
      ∧ (∀ kk, A.length ≤ kk → kk < A.length + nl →
          (∀ i ∈ (pairs.map (fun pr => pr.1)).flatten, i < A.length) →
          kk ∈ setdiff (A.length + nl) ((pairs.map (fun pr => pr.1)).flatten)) := by
  have hde : p.dirKeys.isEmpty = false := by
    cases hd : p.dirKeys with
    | nil => exact absurd hd hdir
    | cons a l => simp [hd]
  by_cases hb : p.binKeys.isEmpty <;> by_cases hf : p.floatKeys.isEmpty <;>
    simp only [shrink, hde, hb, hf, Bool.false_eq_true, if_false, if_true] at h <;>
    split at h <;> cases h <;>
    (obtain ⟨pairs, hcalc, hio, hvo, hino⟩ :=
       shrink_dirichlet_ok_inv _ _ _ _ _ _ _ _ (by assumption)
     refine ⟨pairs, hcalc, by dsimp only; rw [hio], by dsimp only; rw [hvo],
       ?_, fun kk hk1 hk2 hfix => ?_⟩
     · dsimp only
       rw [hino]
       congr 2
       all_goals
         first
           | (rw [shrink_floating_matrix_length, shrink_binary_matrix_length]; omega)
           | (rw [shrink_floating_matrix_length]; omega)
           | (rw [shrink_binary_matrix_length]; omega)
           | omega
     · exact (mem_setdiff _ _ kk).mpr ⟨hk2, fun hmem => absurd (hfix kk hmem) (by omega)⟩)

/-- Witness for the amended C8 at the counterexample instance. -/
theorem c8_indexing_amended_witness :
    (shrink [[1, 0], [0, 1]] [0, 0]
        (ShrinkProblem.mk [1] (fun _ => ⟨[0], [1], 1⟩) [] [2] (fun _ => .const_scalar 3)
          ⟨[5, 0], [], [], [], []⟩ (fun _ => 0) (fun _ => [5]))
        = .ok ([[1, 1], [1, 0]], [0, 3], [0], 1,
            ⟨1, 0, some [0], some [1, 2], some [3]⟩)
      ∧ ([2] : List ℕ) ≠ [])
    ∧ (∃ pairs, calc_values_for_dirichlet (fun _ => BCValue.const_scalar 3)
          ⟨[5, 0], [], [], [], []⟩ (fun _ => 0) (fun _ => [5]) [2] = .ok pairs
        ∧ (SupportData.mk 1 0 (some [0]) (some [1, 2]) (some [3])).indices_on_dirichlet
            = some ((pairs.map (fun pr => pr.1)).flatten)
        ∧ (SupportData.mk 1 0 (some [0]) (some [1, 2]) (some [3])).values_on_dirichlet
            = some ((pairs.map (fun pr => pr.2)).flatten)
        ∧ (SupportData.mk 1 0 (some [0]) (some [1, 2]) (some [3])).indices_not_on_dirichlet
            = some (setdiff (([[1, 0], [0, 1]] : Mat).length + 1)
                ((pairs.map (fun pr => pr.1)).flatten))
        ∧ (∀ kk, ([[1, 0], [0, 1]] : Mat).length ≤ kk →
            kk < ([[1, 0], [0, 1]] : Mat).length + 1 →
            (∀ i ∈ (pairs.map (fun pr => pr.1)).flatten,
              i < ([[1, 0], [0, 1]] : Mat).length) →
            kk ∈ setdiff (([[1, 0], [0, 1]] : Mat).length + 1)
              ((pairs.map (fun pr => pr.1)).flatten))) :=
  ⟨⟨by with_unfolding_all decide, by decide⟩,
    c8_indexing_amended [[1, 0], [0, 1]] [0, 0]
      (ShrinkProblem.mk [1] (fun _ => ⟨[0], [1], 1⟩) [] [2] (fun _ => .const_scalar 3)
        ⟨[5, 0], [], [], [], []⟩ (fun _ => 0) (fun _ => [5]))
      [[1, 1], [1, 0]] [0, 3] [0] 1 ⟨1, 0, some [0], some [1, 2], some [3]⟩
      (by with_unfolding_all decide) (by decide)⟩

/-! ## Lemmas: support data produced by `shrink` vs `compute_support_data` (C7) -/

theorem shrink_floating_count (A' : Mat) (r' : Vec) (keys : List ℕ) (msh : Mesh)
    (rd : ℤ → ℕ) (rB : ℕ → List ℤ) :
    (shrink_floating A' r' keys msh rd rB).2.2
      = ((calc_values_for_floating keys msh rd rB).map (fun ns => ns.length - 1)).sum := by
  show (((calc_values_for_floating keys msh rd rB).map
      (fun nodes => floating_block A'.length nodes)).flatten).length = _
  exact length_floating_flatten _ _

theorem shrink_dirichlet_rhs_length (A0 : Mat) (r0 : Vec) (getBc : ℕ → BCValue)
    (keys : List ℕ) (msh : Mesh) (rd : ℤ → ℕ) (rB : ℕ → List ℤ) (res : DirichletResult)
    (heq : shrink_dirichlet A0 r0 getBc keys msh rd rB = .ok res) :
    res.rhs.length = res.indices_not_on_dirichlet.length := by
  unfold shrink_dirichlet at heq
  cases hcalc : calc_values_for_dirichlet getBc msh rd rB keys with
  | error e =>
    rw [hcalc] at heq
    exact Except.noConfusion heq
  | ok pairs =>
    rw [hcalc] at heq
    injection heq with h2
    rw [← h2]
    dsimp only
    rw [length_vsub, List.length_map, length_matVec, length_submatrix, Nat.min_self]

/-- Claim C7: for every boundary-condition state on which `shrink` succeeds
(and whose Dirichlet-fixed indices are distinct and within the augmented row
range), the support data recomputed from scratch by `compute_support_data` at
the reduced solution size equals, field by field, the support data that
`shrink` produced inline. -/
theorem c7_support_data_idempotent (A : Mat) (r : Vec) (p : ShrinkProblem)
    (M : Mat) (rr : Vec) (ind : List ℕ) (nl : ℕ) (sd : SupportData)
    (h : shrink A r p = .ok (M, rr, ind, nl, sd))
    (hwf : ∀ pairs, calc_values_for_dirichlet p.getDir p.mesh p.regionDim p.regionsOfBc
        p.dirKeys = .ok pairs →
      ((pairs.map (fun pr => pr.1)).flatten).Nodup
        ∧ ∀ i ∈ (pairs.map (fun pr => pr.1)).flatten, i < A.length + nl) :
    compute_support_data p rr.length = .ok sd := by
  by_cases hd : p.dirKeys.isEmpty
  · by_cases hb : p.binKeys.isEmpty <;> by_cases hf : p.floatKeys.isEmpty <;>
      simp only [shrink, hd, hb, hf, Bool.false_eq_true, if_false, if_true] at h <;>
      cases h <;>
      (simp only [compute_support_data, hd, hb, hf, Bool.false_eq_true, if_false, if_true,
        Except.ok.injEq, SupportData.mk.injEq, Option.some.injEq]
       repeat' apply And.intro
       all_goals
         first
           | rfl
           | trivial
           | exact (shrink_floating_count _ _ _ _ _ _).symm)
  · have hde : p.dirKeys.isEmpty = false := by simpa using hd
    by_cases hb : p.binKeys.isEmpty <;> by_cases hf : p.floatKeys.isEmpty <;>
      simp only [shrink, hde, hb, hf, Bool.false_eq_true, if_false, if_true] at h <;>
      split at h <;> cases h <;>
      (obtain ⟨pairs, hcalc, hio, hvo, hino⟩ :=
         shrink_dirichlet_ok_inv _ _ _ _ _ _ _ _ (by assumption)
       have hrl := shrink_dirichlet_rhs_length _ _ _ _ _ _ _ _ (by assumption)
       obtain ⟨hnd2, hbound⟩ := hwf pairs hcalc
       simp only [compute_support_data, hde, hb, hf, Bool.false_eq_true, if_false, if_true,
         hcalc, Except.ok.injEq, SupportData.mk.injEq, Option.some.injEq]
       repeat' apply And.intro
       all_goals
         first
           | rfl
           | trivial
           | exact (shrink_floating_count _ _ _ _ _ _).symm
           | exact hio.symm
           | exact hvo.symm
           | (rw [hrl, hino]
              congr 1
              refine length_setdiff _ _ hnd2 ?_
              intro i hi
              have hbi := hbound i hi
              first
                | (rw [shrink_floating_matrix_length, shrink_binary_matrix_length]; omega)
                | (rw [shrink_floating_matrix_length]; omega)
                | (rw [shrink_binary_matrix_length]; omega)
                | omega))

/-- Witness for C7 at a concrete boundary-condition state with one binary and
one Dirichlet condition. -/
theorem c7_support_data_idempotent_witness :
    (shrink [[1, 0], [0, 1]] [0, 0]
        (ShrinkProblem.mk [1] (fun _ => ⟨[0], [1], 1⟩) [] [2] (fun _ => .const_scalar 3)
          ⟨[5, 0], [], [], [], []⟩ (fun _ => 0) (fun _ => [5]))
        = .ok ([[1, 1], [1, 0]], [0, 3], [0], 1,
            ⟨1, 0, some [0], some [1, 2], some [3]⟩)
      ∧ (∀ pairs, calc_values_for_dirichlet (fun _ => BCValue.const_scalar 3)
            ⟨[5, 0], [], [], [], []⟩ (fun _ => 0) (fun _ => [5]) [2] = .ok pairs →
          ((pairs.map (fun pr => pr.1)).flatten).Nodup
            ∧ ∀ i ∈ (pairs.map (fun pr => pr.1)).flatten,
                i < ([[1, 0], [0, 1]] : Mat).length + 1))
    ∧ compute_support_data
        (ShrinkProblem.mk [1] (fun _ => ⟨[0], [1], 1⟩) [] [2] (fun _ => .const_scalar 3)
          ⟨[5, 0], [], [], [], []⟩ (fun _ => 0) (fun _ => [5]))
        ([0, 3] : Vec).length
        = .ok ⟨1, 0, some [0], some [1, 2], some [3]⟩ := by
  have hsh : shrink [[1, 0], [0, 1]] [0, 0]
      (ShrinkProblem.mk [1] (fun _ => ⟨[0], [1], 1⟩) [] [2] (fun _ => .const_scalar 3)
        ⟨[5, 0], [], [], [], []⟩ (fun _ => 0) (fun _ => [5]))
      = .ok ([[1, 1], [1, 0]], [0, 3], [0], 1,
          ⟨1, 0, some [0], some [1, 2], some [3]⟩) := by
    with_unfolding_all decide
  have hwf : ∀ pairs, calc_values_for_dirichlet (fun _ => BCValue.const_scalar 3)
        ⟨[5, 0], [], [], [], []⟩ (fun _ => 0) (fun _ => [5]) [2] = .ok pairs →
      ((pairs.map (fun pr => pr.1)).flatten).Nodup
        ∧ ∀ i ∈ (pairs.map (fun pr => pr.1)).flatten,
            i < ([[1, 0], [0, 1]] : Mat).length + 1 := by
    intro pairs hp
    have hc : calc_values_for_dirichlet (fun _ => BCValue.const_scalar 3)
        ⟨[5, 0], [], [], [], []⟩ (fun _ => 0) (fun _ => [5]) [2]
        = .ok [([0], [3])] := by
      with_unfolding_all decide
    rw [hc] at hp
    injection hp with h3
    subst h3
    exact ⟨by decide, by decide⟩
  exact ⟨⟨hsh, hwf⟩,
    c7_support_data_idempotent [[1, 0], [0, 1]] [0, 0]
      (ShrinkProblem.mk [1] (fun _ => ⟨[0], [1], 1⟩) [] [2] (fun _ => .const_scalar 3)
        ⟨[5, 0], [], [], [], []⟩ (fun _ => 0) (fun _ => [5]))
      [[1, 1], [1, 0]] [0, 3] [0] 1 ⟨1, 0, some [0], some [1, 2], some [3]⟩ hsh hwf⟩

end Pyrit
